import Mathlib

/-!
# SimpleVector: a shallow embedding of `simple_vector.h` and `array_ptr.h`

The heap array owned by an `ArrayPtr<Type>` is a `List` of cells whose length is
the number of allocated elements (the null pointer is the empty list).  Pointers
and iterators into an array are offsets from its first cell.  Reading or writing
a cell outside the allocated array is undefined behaviour and is reported as
`Fault.undefined_behaviour`; nothing is ever silently dropped.

`size_t` arithmetic is carried out in `Nat` (no overflow), except for the
decrement in `PopBack`, which wraps at zero as in the source.
-/

namespace SimpleVectorModel

/-- Ways in which a call fails to produce a result. -/
inductive Fault where
  /-- `std::out_of_range` thrown with the given message -/
  | out_of_range (what : String)
  /-- an access outside the allocated array, or a pointer moved before it -/
  | undefined_behaviour
  /-- a loop of the model used up its iteration budget -/
  | out_of_fuel
  deriving DecidableEq, Repr

/-- What the container needs to know about its element type `Type`. -/
class Element (α : Type) where
  /-- the value of the expression `Type()` -/
  value_init : α
  /-- the content of each cell of a fresh `new Type[n]` -/
  default_init : α
  /-- the state an object is left in after `std::move` took its value -/
  moved_from : α → α

/-- Plain integers: `Type()` is 0, and moving from an integer leaves it as it was. -/
instance instElementNat : Element Nat where
  value_init := 0
  default_init := 0
  moved_from := id

/-- Strings as an element type whose moved-from objects are empty, as for
`std::string` in the common standard libraries. -/
instance instElementString : Element String where
  value_init := ""
  default_init := ""
  moved_from := fun _ => ""

/-- The largest `size_t`. -/
def SIZE_MAX : Nat := 2 ^ 64 - 1

/-! ## Memory cells -/

/-- Read `*(p + i)` where `p` points to the first cell of `buf`. -/
def load {α : Type} (buf : List α) (i : Nat) : Except Fault α :=
  match buf[i]? with
  | some x => .ok x
  | none => .error .undefined_behaviour

/-- Write `*(p + i) = x` where `p` points to the first cell of `buf`. -/
def store {α : Type} (buf : List α) (i : Nat) (x : α) : Except Fault (List α) :=
  if i < buf.length then .ok (buf.set i x) else .error .undefined_behaviour

/-! ## array_ptr.h -/

/-- `ArrayPtr<Type>`: `raw_ptr_` is the owned array, `[]` standing for `nullptr`. -/
structure ArrayPtr (α : Type) where
  raw_ptr_ : List α
  deriving DecidableEq, Repr

namespace ArrayPtr

/-- `ArrayPtr() = default`. -/
def null {α : Type} : ArrayPtr α := ⟨[]⟩

/-- `explicit ArrayPtr(size_t size)`. -/
def alloc {α : Type} [Element α] (size : Nat) : ArrayPtr α :=
  if size ≠ 0 then ⟨List.replicate size Element.default_init⟩ else null

/-- `ArrayPtr(ArrayPtr&& other)`: the new object and what is left of `other`. -/
def move_ctor {α : Type} (other : ArrayPtr α) : ArrayPtr α × ArrayPtr α :=
  (⟨other.raw_ptr_⟩, ⟨[]⟩)

/-- `operator=(ArrayPtr&& other)`; `distinct` is the test `this != &other`.
Returns the assigned object and what is left of `other`. -/
def move_assign {α : Type} (self other : ArrayPtr α) (distinct : Bool) :
    ArrayPtr α × ArrayPtr α :=
  if distinct then (⟨other.raw_ptr_⟩, ⟨[]⟩) else (self, self)

/-- `Release()`: the released array and the emptied object. -/
def Release {α : Type} (self : ArrayPtr α) : List α × ArrayPtr α :=
  (self.raw_ptr_, ⟨[]⟩)

/-- `operator[](index)` used as a value. -/
def index {α : Type} (self : ArrayPtr α) (i : Nat) : Except Fault α :=
  load self.raw_ptr_ i

/-- `operator[](index) = x`. -/
def assign {α : Type} (self : ArrayPtr α) (i : Nat) (x : α) : Except Fault (ArrayPtr α) :=
  match store self.raw_ptr_ i x with
  | .ok buf => .ok ⟨buf⟩
  | .error e => .error e

/-- `explicit operator bool()`. -/
def toBool {α : Type} (self : ArrayPtr α) : Bool :=
  !(self.raw_ptr_.isEmpty)

/-- `Get()`. -/
def Get {α : Type} (self : ArrayPtr α) : List α := self.raw_ptr_

/-- `swap(other)`: the new `*this` and the new `other`. -/
def swap {α : Type} (self other : ArrayPtr α) : ArrayPtr α × ArrayPtr α :=
  (other, self)

end ArrayPtr

/-! ## Loops over arrays -/

/-- `for (it = first; it != last; ++it) body(it)` over offsets into an array,
threading a state `σ`.  Every loop below is run with more fuel than the length of
the array it walks over, which no run that stays inside the array can use up. -/
def while_ne {σ : Type} (body : Nat → σ → Except Fault σ) :
    Nat → Nat → Nat → σ → Except Fault σ
  | 0, _, _, _ => .error .out_of_fuel
  | fuel + 1, it, last, s =>
    if it ≠ last then
      match body it s with
      | .ok s1 => while_ne body fuel (it + 1) last s1
      | .error e => .error e
    else .ok s

/-- `std::fill(first, last, value)` on the array `buf`. -/
def std_fill {α : Type} (buf : List α) (first last : Nat) (value : α) :
    Except Fault (List α) :=
  while_ne (fun it b => store b it value) (buf.length + 1) first last buf

/-- One step `*d_first++ = *first++` of `std::copy`; the state is the destination
array and `d_first`. -/
def copy_step {α : Type} (src : List α) (it : Nat) (s : List α × Nat) :
    Except Fault (List α × Nat) :=
  match load src it with
  | .ok x =>
    match store s.1 s.2 x with
    | .ok dst => .ok (dst, s.2 + 1)
    | .error e => .error e
  | .error e => .error e

/-- `std::copy(first, last, d_first)` from the array `src` into another array `dst`. -/
def std_copy {α : Type} (src : List α) (first last : Nat) (dst : List α) (d_first : Nat) :
    Except Fault (List α) :=
  match while_ne (copy_step src) (src.length + 1) first last (dst, d_first) with
  | .ok s => .ok s.1
  | .error e => .error e

/-- One step `*d_first++ = std::move(*first++)` of `std::move` between two arrays;
the state is the source array, the destination array and `d_first`. -/
def move_step {α : Type} [Element α] (it : Nat) (s : List α × List α × Nat) :
    Except Fault (List α × List α × Nat) :=
  match load s.1 it with
  | .ok x =>
    match store s.2.1 s.2.2 x with
    | .ok dst =>
      match store s.1 it (Element.moved_from x) with
      | .ok src => .ok (src, dst, s.2.2 + 1)
      | .error e => .error e
    | .error e => .error e
  | .error e => .error e

/-- `std::move(first, last, d_first)` from the array `src` into another array `dst`:
the source array after the moves and the destination array. -/
def std_move {α : Type} [Element α] (src : List α) (first last : Nat) (dst : List α)
    (d_first : Nat) : Except Fault (List α × List α) :=
  match while_ne move_step (src.length + 1) first last (src, dst, d_first) with
  | .ok s => .ok (s.1, s.2.1)
  | .error e => .error e

/-- One step `*d_first++ = std::move(*first++)` of `std::move` when source and
destination lie in the same array; the state is the array and `d_first`. -/
def move_within_step {α : Type} [Element α] (it : Nat) (s : List α × Nat) :
    Except Fault (List α × Nat) :=
  match load s.1 it with
  | .ok x =>
    match store s.1 s.2 x with
    | .ok buf =>
      match store buf it (Element.moved_from x) with
      | .ok buf1 => .ok (buf1, s.2 + 1)
      | .error e => .error e
    | .error e => .error e
  | .error e => .error e

/-- `std::move(first, last, d_first)` with all three pointers into the array `buf`:
elements are moved one by one starting from `first` and proceeding to `last`. -/
def std_move_within {α : Type} [Element α] (buf : List α) (first last d_first : Nat) :
    Except Fault (List α) :=
  match while_ne move_within_step (buf.length + 1) first last (buf, d_first) with
  | .ok s => .ok s.1
  | .error e => .error e

/-- `std::copy_backward(first, last, d_last)` with all three pointers into the array
`buf`: `while (first != last) *(--d_last) = *(--last);`. -/
def copy_backward_loop {α : Type} :
    Nat → List α → Nat → Nat → Nat → Except Fault (List α)
  | 0, _, _, _, _ => .error .out_of_fuel
  | fuel + 1, buf, first, last, d_last =>
    if first ≠ last then
      match last, d_last with
      | l + 1, d + 1 =>
        match load buf l with
        | .ok x =>
          match store buf d x with
          | .ok buf1 => copy_backward_loop fuel buf1 first l d
          | .error e => .error e
        | .error e => .error e
      | _, _ => .error .undefined_behaviour
    else .ok buf

/-- `std::copy_backward(first, last, d_last)` inside the array `buf`. -/
def std_copy_backward {α : Type} (buf : List α) (first last d_last : Nat) :
    Except Fault (List α) :=
  copy_backward_loop (buf.length + 1) buf first last d_last

/-- `std::equal(first1, last1, first2)`: the loop
`for (; first1 != last1; ++first1, ++first2) if (!(*first1 == *first2)) return false;`. -/
def equal_loop {α : Type} [BEq α] (a b : List α) :
    Nat → Nat → Nat → Nat → Except Fault Bool
  | 0, _, _, _ => .error .out_of_fuel
  | fuel + 1, first1, last1, first2 =>
    if first1 ≠ last1 then
      match load a first1 with
      | .ok x =>
        match load b first2 with
        | .ok y => if !(x == y) then .ok false else equal_loop a b fuel (first1 + 1) last1 (first2 + 1)
        | .error e => .error e
      | .error e => .error e
    else .ok true

/-- `std::equal(first1, last1, first2)` on the arrays `a` and `b`. -/
def std_equal {α : Type} [BEq α] (a : List α) (first1 last1 : Nat) (b : List α) (first2 : Nat) :
    Except Fault Bool :=
  equal_loop a b (a.length + 1) first1 last1 first2

/-! ## simple_vector.h -/

/-- `ReserveProxyObj`. -/
structure ReserveProxyObj where
  capacity_to_reserve_ : Nat
  deriving DecidableEq, Repr

/-- `ReserveProxyObj::GetCapacity()`. -/
def ReserveProxyObj.GetCapacity (obj : ReserveProxyObj) : Nat := obj.capacity_to_reserve_

/-- The free function `Reserve(capacity_to_reserve)`. -/
def Reserve (capacity_to_reserve : Nat) : ReserveProxyObj := ⟨capacity_to_reserve⟩

/-- `SimpleVector<Type>`: the three data members. -/
structure SimpleVector (α : Type) where
  items_ : ArrayPtr α
  size_ : Nat
  capacity_ : Nat
  deriving DecidableEq, Repr

namespace SimpleVector

variable {α : Type}

/-- `SimpleVector() noexcept = default`. -/
def empty : SimpleVector α := ⟨ArrayPtr.null, 0, 0⟩

/-- `begin()` and `cbegin()`, as an offset into `items_`. -/
def begin (_v : SimpleVector α) : Nat := 0

/-- `end()` and `cend()`, as an offset into `items_`. -/
def end_ (v : SimpleVector α) : Nat := 0 + v.size_

/-- `GetSize()`. -/
def GetSize (v : SimpleVector α) : Nat := v.size_

/-- `GetCapacity()`. -/
def GetCapacity (v : SimpleVector α) : Nat := v.capacity_

/-- `IsEmpty()`. -/
def IsEmpty (v : SimpleVector α) : Bool := v.size_ == 0

/-- `explicit SimpleVector(size_t size)`. -/
def with_size [Element α] (size : Nat) : Except Fault (SimpleVector α) :=
  let v : SimpleVector α := ⟨ArrayPtr.alloc size, size, size⟩
  match std_fill v.items_.Get v.begin v.end_ Element.value_init with
  | .ok buf => .ok { v with items_ := ⟨buf⟩ }
  | .error e => .error e

/-- `SimpleVector(size_t size, const Type& value)`. -/
def with_value [Element α] (size : Nat) (value : α) : Except Fault (SimpleVector α) :=
  let v : SimpleVector α := ⟨ArrayPtr.alloc size, size, size⟩
  match std_fill v.items_.Get v.begin v.end_ value with
  | .ok buf => .ok { v with items_ := ⟨buf⟩ }
  | .error e => .error e

/-- `SimpleVector(std::initializer_list<Type> init)`. -/
def of_init [Element α] (init : List α) : Except Fault (SimpleVector α) :=
  let v : SimpleVector α := ⟨ArrayPtr.alloc init.length, init.length, init.length⟩
  match std_copy init 0 init.length v.items_.Get v.begin with
  | .ok buf => .ok { v with items_ := ⟨buf⟩ }
  | .error e => .error e

/-- `operator[](index)` used as a value. -/
def index (v : SimpleVector α) (i : Nat) : Except Fault α :=
  v.items_.index i

/-- `At(index)`: the element referred to, together with the container after the call. -/
def At (v : SimpleVector α) (i : Nat) : Except Fault (α × SimpleVector α) :=
  if i ≥ v.size_ then
    .error (.out_of_range "The index is outside the array")
  else
    match v.items_.index i with
    | .ok x => .ok (x, v)
    | .error e => .error e

/-- `Clear()`. -/
def Clear (v : SimpleVector α) : SimpleVector α :=
  { v with size_ := 0 }

/-- `Fill(begin, end)`: `for (auto it = begin; it != end; ++it) *it = Type();`
on the array `buf`. -/
def Fill [Element α] (buf : List α) (first last : Nat) : Except Fault (List α) :=
  while_ne (fun it b => store b it (Element.value_init : α)) (buf.length + 1) first last buf

/-- `Resize(new_size)`. -/
def Resize [Element α] (v : SimpleVector α) (new_size : Nat) : Except Fault (SimpleVector α) :=
  if new_size ≤ v.size_ then
    .ok { v with size_ := new_size }
  else if new_size ≤ v.capacity_ then
    match Fill v.items_.Get (v.begin + v.size_) (v.begin + new_size) with
    | .ok buf => .ok { v with items_ := ⟨buf⟩, size_ := new_size }
    | .error e => .error e
  else
    let new_capacity := max new_size (v.capacity_ * 2)
    let tmp : ArrayPtr α := ArrayPtr.alloc new_capacity
    match std_move v.items_.Get v.begin v.end_ tmp.Get 0 with
    | .ok (old, buf) =>
      match Fill buf (0 + v.size_) (0 + new_size) with
      | .ok buf1 =>
        let sw := (ArrayPtr.mk old).swap ⟨buf1⟩
        .ok { items_ := sw.1, size_ := new_size, capacity_ := new_capacity }
      | .error e => .error e
    | .error e => .error e

/-- `PushBack(const Type& item)`. -/
def PushBack [Element α] (v : SimpleVector α) (item : α) : Except Fault (SimpleVector α) :=
  if v.size_ < v.capacity_ then
    match v.items_.assign v.size_ item with
    | .ok items => .ok { v with items_ := items, size_ := v.size_ + 1 }
    | .error e => .error e
  else
    let new_capacity := if v.capacity_ = 0 then 1 else v.capacity_ * 2
    let tmp : ArrayPtr α := ArrayPtr.alloc new_capacity
    match std_copy v.items_.Get v.begin v.end_ tmp.Get 0 with
    | .ok buf =>
      match (ArrayPtr.mk buf).assign v.size_ item with
      | .ok tmp1 =>
        let sw := v.items_.swap tmp1
        .ok { items_ := sw.1, size_ := v.size_ + 1, capacity_ := new_capacity }
      | .error e => .error e
    | .error e => .error e

/-- `PushBack(Type&& item)`. -/
def PushBack_move [Element α] (v : SimpleVector α) (item : α) :
    Except Fault (SimpleVector α) :=
  if v.size_ < v.capacity_ then
    match v.items_.assign v.size_ item with
    | .ok items => .ok { v with items_ := items, size_ := v.size_ + 1 }
    | .error e => .error e
  else
    let new_capacity := if v.capacity_ = 0 then 1 else v.capacity_ * 2
    let tmp : ArrayPtr α := ArrayPtr.alloc new_capacity
    match std_move v.items_.Get v.begin v.end_ tmp.Get 0 with
    | .ok (old, buf) =>
      match (ArrayPtr.mk buf).assign v.size_ item with
      | .ok tmp1 =>
        let sw := (ArrayPtr.mk old).swap tmp1
        .ok { items_ := sw.1, size_ := v.size_ + 1, capacity_ := new_capacity }
      | .error e => .error e
    | .error e => .error e

/-- `Insert(ConstIterator pos, const Type& value)`: the returned iterator (as an
offset into the new `items_`) and the container after the call. -/
def Insert [Element α] (v : SimpleVector α) (pos : Nat) (value : α) :
    Except Fault (Nat × SimpleVector α) :=
  let dist := pos - v.begin
  if v.size_ < v.capacity_ then
    match std_copy_backward v.items_.Get pos v.end_ (v.end_ + 1) with
    | .ok buf =>
      match store buf (v.begin + dist) value with
      | .ok buf1 =>
        let v1 : SimpleVector α := { v with items_ := ⟨buf1⟩, size_ := v.size_ + 1 }
        .ok (v1.begin + dist, v1)
      | .error e => .error e
    | .error e => .error e
  else
    let new_capacity := if v.capacity_ = 0 then 1 else v.capacity_ * 2
    let tmp : ArrayPtr α := ArrayPtr.alloc new_capacity
    match std_copy v.items_.Get v.begin (v.begin + dist) tmp.Get 0 with
    | .ok buf =>
      match store buf (0 + dist) value with
      | .ok buf1 =>
        match std_copy v.items_.Get (v.begin + dist) v.end_ buf1 (0 + dist + 1) with
        | .ok buf2 =>
          let sw := v.items_.swap ⟨buf2⟩
          let v1 : SimpleVector α :=
            { items_ := sw.1, size_ := v.size_ + 1, capacity_ := new_capacity }
          .ok (v1.begin + dist, v1)
        | .error e => .error e
      | .error e => .error e
    | .error e => .error e

/-- `Insert(ConstIterator pos, Type&& value)`: the returned iterator and the
container after the call. -/
def Insert_move [Element α] (v : SimpleVector α) (pos : Nat) (value : α) :
    Except Fault (Nat × SimpleVector α) :=
  let dist := pos - v.begin
  if v.size_ < v.capacity_ then
    match std_move_within v.items_.Get pos v.end_ (pos + 1) with
    | .ok buf =>
      match store buf (v.begin + dist) value with
      | .ok buf1 =>
        let v1 : SimpleVector α := { v with items_ := ⟨buf1⟩, size_ := v.size_ + 1 }
        .ok (v1.begin + dist, v1)
      | .error e => .error e
    | .error e => .error e
  else
    let new_capacity := if v.capacity_ = 0 then 1 else v.capacity_ * 2
    let tmp : ArrayPtr α := ArrayPtr.alloc new_capacity
    match std_move v.items_.Get v.begin (v.begin + dist) tmp.Get 0 with
    | .ok (old, buf) =>
      match store buf (0 + dist) value with
      | .ok buf1 =>
        match std_move old (v.begin + dist) v.end_ buf1 (0 + dist + 1) with
        | .ok (old1, buf2) =>
          let sw := (ArrayPtr.mk old1).swap ⟨buf2⟩
          let v1 : SimpleVector α :=
            { items_ := sw.1, size_ := v.size_ + 1, capacity_ := new_capacity }
          .ok (v1.begin + dist, v1)
        | .error e => .error e
      | .error e => .error e
    | .error e => .error e

/-- `PopBack()`: `--size_` on a `size_t`. -/
def PopBack (v : SimpleVector α) : SimpleVector α :=
  { v with size_ := if v.size_ = 0 then SIZE_MAX else v.size_ - 1 }

/-- The body `*first = std::move(*second); ++first;` of the loop in `Erase`, run
with iterator `second`; the state is the array and `first`. -/
def Erase_step [Element α] (second : Nat) (s : List α × Nat) : Except Fault (List α × Nat) :=
  match load s.1 second with
  | .ok x =>
    match store s.1 s.2 x with
    | .ok buf =>
      match store buf second (Element.moved_from x) with
      | .ok buf1 => .ok (buf1, s.2 + 1)
      | .error e => .error e
    | .error e => .error e
  | .error e => .error e

/-- `Erase(ConstIterator pos)`: the returned iterator and the container after the call. -/
def Erase [Element α] (v : SimpleVector α) (pos : Nat) : Except Fault (Nat × SimpleVector α) :=
  let first := pos
  let second := first + 1
  match while_ne Erase_step (v.items_.Get.length + 1) second v.end_ (v.items_.Get, first) with
  | .ok s =>
    .ok (pos, { v with items_ := ⟨s.1⟩, size_ := if v.size_ = 0 then SIZE_MAX else v.size_ - 1 })
  | .error e => .error e

/-- `Reserve(new_capacity)`. -/
def Reserve [Element α] (v : SimpleVector α) (new_capacity : Nat) :
    Except Fault (SimpleVector α) :=
  if v.capacity_ < new_capacity then
    let tmp : ArrayPtr α := ArrayPtr.alloc new_capacity
    match std_move v.items_.Get v.begin v.end_ tmp.Get 0 with
    | .ok (old, buf) =>
      let sw := (ArrayPtr.mk old).swap ⟨buf⟩
      .ok { v with items_ := sw.1, capacity_ := new_capacity }
    | .error e => .error e
  else .ok v

/-- `SimpleVector(const ReserveProxyObj& obj)`. -/
def of_reserve [Element α] (obj : ReserveProxyObj) : Except Fault (SimpleVector α) :=
  (empty : SimpleVector α).Reserve obj.GetCapacity

/-- `swap(other)`: the new `*this` and the new `other`. -/
def swap (self other : SimpleVector α) : SimpleVector α × SimpleVector α :=
  let sw := self.items_.swap other.items_
  (⟨sw.1, other.size_, other.capacity_⟩, ⟨sw.2, self.size_, self.capacity_⟩)

/-- `Copy(other)`: the new `*this`. -/
def Copy [Element α] (self other : SimpleVector α) : Except Fault (SimpleVector α) :=
  match (with_size other.size_ : Except Fault (SimpleVector α)) with
  | .ok tmp =>
    match while_ne (copy_step other.items_.Get) (other.items_.Get.length + 1)
        other.begin other.end_ (tmp.items_.Get, tmp.begin) with
    | .ok s =>
      let tmp1 : SimpleVector α :=
        { items_ := ⟨s.1⟩, size_ := other.size_, capacity_ := other.capacity_ }
      .ok (self.swap tmp1).1
    | .error e => .error e
  | .error e => .error e

/-- `SimpleVector(const SimpleVector& other)`. -/
def copy_ctor [Element α] (other : SimpleVector α) : Except Fault (SimpleVector α) :=
  (empty : SimpleVector α).Copy other

/-- `SimpleVector(SimpleVector&& other)`: the new object and what is left of `other`. -/
def move_ctor (other : SimpleVector α) : SimpleVector α × SimpleVector α :=
  let mv := ArrayPtr.move_ctor other.items_
  (⟨mv.1, other.size_, other.capacity_⟩, ⟨mv.2, 0, 0⟩)

/-- `operator=(const SimpleVector& other)`; `distinct` is the test `this != &other`. -/
def assign_copy [Element α] (self other : SimpleVector α) (distinct : Bool) :
    Except Fault (SimpleVector α) :=
  if distinct then self.Copy other else .ok self

/-- `operator=(SimpleVector&& other)`; `distinct` is the test `this != &other`.
Returns the assigned object and what is left of `other`. -/
def assign_move (self other : SimpleVector α) (distinct : Bool) :
    SimpleVector α × SimpleVector α :=
  if distinct then
    let mv := ArrayPtr.move_assign self.items_ other.items_ true
    (⟨mv.1, other.size_, other.capacity_⟩, ⟨mv.2, 0, 0⟩)
  else (self, self)

/-- `operator==(lhs, rhs)`; `same` is the test `&lhs == &rhs`. -/
def eq [BEq α] (lhs rhs : SimpleVector α) (same : Bool) : Except Fault Bool :=
  if same then .ok true
  else if lhs.GetSize ≠ rhs.GetSize then .ok false
  else std_equal lhs.items_.Get lhs.begin lhs.end_ rhs.items_.Get rhs.begin

/-- The live sequence: the cells at offsets `[0, size_)`. -/
def live (v : SimpleVector α) : List α := v.items_.raw_ptr_.take v.size_

/-- The spec's data-model invariant: `size <= capacity`, and `capacity` is the number
of elements allocated in the buffer. -/
def WellFormed (v : SimpleVector α) : Prop :=
  v.size_ ≤ v.capacity_ ∧ v.capacity_ = v.items_.raw_ptr_.length

instance (v : SimpleVector α) : Decidable (WellFormed v) := by
  unfold WellFormed; infer_instance

/-- Consecutive calls `PushBack(x)`, one for each `x` of the list, in order. -/
def PushBack_all [Element α] (v : SimpleVector α) : List α → Except Fault (SimpleVector α)
  | [] => .ok v
  | x :: xs =>
    match v.PushBack x with
    | .ok w => PushBack_all w xs
    | .error e => .error e

/-- The capacity is what the doubling policy produces for the current size: zero for an
empty container that never grew, else a power of two below twice the size. -/
def Doubled (v : SimpleVector α) : Prop :=
  (v.size_ = 0 ∧ v.capacity_ = 0) ∨
    (1 ≤ v.size_ ∧ v.capacity_ < 2 * v.size_ ∧ ∃ e, v.capacity_ = 2 ^ e)

/-- `operator!=(lhs, rhs)`; `same` is the test `&lhs == &rhs` made by `operator==`. -/
def ne [BEq α] (lhs rhs : SimpleVector α) (same : Bool) : Except Fault Bool :=
  match lhs.eq rhs same with
  | .ok r => .ok (!r)
  | .error e => .error e

/-- The loop of `std::lexicographical_compare(first1, last1, first2, last2)` on the arrays
`a` and `b`:
`for (; first1 != last1 && first2 != last2; ++first1, ++first2)`
`{ if (*first1 < *first2) return true; if (*first2 < *first1) return false; }`
`return first1 == last1 && first2 != last2;`. -/
def lexicographical_compare_loop [LT α] [∀ x y : α, Decidable (x < y)] (a b : List α) :
    Nat → Nat → Nat → Nat → Nat → Except Fault Bool
  | 0, _, _, _, _ => .error .out_of_fuel
  | fuel + 1, first1, last1, first2, last2 =>
    if first1 ≠ last1 ∧ first2 ≠ last2 then
      match load a first1 with
      | .ok x =>
        match load b first2 with
        | .ok y =>
          if x < y then .ok true
          else if y < x then .ok false
          else lexicographical_compare_loop a b fuel (first1 + 1) last1 (first2 + 1) last2
        | .error e => .error e
      | .error e => .error e
    else .ok (decide (first1 = last1) && decide (first2 ≠ last2))

/-- `std::lexicographical_compare(first1, last1, first2, last2)` on the arrays `a`, `b`. -/
def std_lexicographical_compare [LT α] [∀ x y : α, Decidable (x < y)] (a : List α)
    (first1 last1 : Nat) (b : List α) (first2 last2 : Nat) : Except Fault Bool :=
  lexicographical_compare_loop a b (a.length + 1) first1 last1 first2 last2

/-- `operator<(lhs, rhs)`. -/
def lt [LT α] [∀ x y : α, Decidable (x < y)] (lhs rhs : SimpleVector α) : Except Fault Bool :=
  std_lexicographical_compare lhs.items_.Get lhs.begin lhs.end_ rhs.items_.Get rhs.begin
    rhs.end_

/-- `operator<=(lhs, rhs)`: `!(rhs < lhs)`. -/
def le [LT α] [∀ x y : α, Decidable (x < y)] (lhs rhs : SimpleVector α) : Except Fault Bool :=
  match rhs.lt lhs with
  | .ok r => .ok (!r)
  | .error e => .error e

/-- `operator>(lhs, rhs)`: `rhs < lhs`. -/
def gt [LT α] [∀ x y : α, Decidable (x < y)] (lhs rhs : SimpleVector α) : Except Fault Bool :=
  rhs.lt lhs

/-- `operator>=(lhs, rhs)`: `!(rhs > lhs)`. -/
def ge [LT α] [∀ x y : α, Decidable (x < y)] (lhs rhs : SimpleVector α) : Except Fault Bool :=
  match rhs.gt lhs with
  | .ok r => .ok (!r)
  | .error e => .error e

/-- Lexicographic comparison of two sequences as the specification words it: the first
position where the elements differ decides, and a proper leading part of a sequence is
less than the sequence. -/
def lexicographic_less [LT α] [∀ x y : α, Decidable (x < y)] : List α → List α → Bool
  | [], [] => false
  | [], _ :: _ => true
  | _ :: _, [] => false
  | x :: xs, y :: ys =>
    if x < y then true else if y < x then false else lexicographic_less xs ys

end SimpleVector

/-! ## Memory lemmas -/

theorem load_eq_ok {α : Type} {buf : List α} {i : Nat} {x : α} (h : buf[i]? = some x) :
    load buf i = .ok x := by
  simp [load, h]

theorem load_of_lt {α : Type} {buf : List α} {i : Nat} (h : i < buf.length) :
    load buf i = .ok (buf[i]) := by
  simp [load, h]

theorem store_eq_ok {α : Type} {buf : List α} {i : Nat} (x : α) (h : i < buf.length) :
    store buf i x = .ok (buf.set i x) := by
  simp [store, h]

/-- Writing `val` into the cells `[first, last)` one after the other. -/
theorem fill_loop_spec {α : Type} (val : α) (last : Nat) :
    ∀ (fuel first : Nat) (buf : List α), first ≤ last → last ≤ buf.length →
      last - first < fuel →
      ∃ buf1, while_ne (fun it b => store b it val) fuel first last buf = .ok buf1 ∧
        buf1.length = buf.length ∧
        ∀ j, buf1[j]? = if first ≤ j ∧ j < last then some val else buf[j]? := by
  intro fuel
  induction fuel with
  | zero => intro first buf _ _ h; omega
  | succ n ih =>
    intro first buf h1 h2 h3
    by_cases hfl : first = last
    · subst hfl
      refine ⟨buf, by simp [while_ne], rfl, ?_⟩
      intro j
      have : ¬ (first ≤ j ∧ j < first) := by omega
      simp [this]
    · have hlt : first < buf.length := by omega
      obtain ⟨buf1, he, hl, hj⟩ :=
        ih (first + 1) (buf.set first val) (by omega) (by simpa using h2) (by omega)
      refine ⟨buf1, ?_, by simpa using hl, ?_⟩
      · rw [while_ne, if_pos hfl, store_eq_ok val hlt]
        exact he
      · intro j
        rw [hj j, List.getElem?_set]
        by_cases hjf : first = j
        · subst hjf
          have h4 : ¬ (first + 1 ≤ first ∧ first < last) := by omega
          have h5 : first ≤ first ∧ first < last := by omega
          simp [h4, h5, hlt]
        · by_cases hin : first + 1 ≤ j ∧ j < last
          · have h5 : first ≤ j ∧ j < last := by omega
            simp [hin, h5]
          · have h5 : ¬ (first ≤ j ∧ j < last) := by omega
            simp [hin, h5, hjf]

/-- Forward copy of `src[first, last)` to the cells of another array starting at `d`. -/
theorem copy_loop_spec {α : Type} (src : List α) (last : Nat) :
    ∀ (fuel first : Nat) (dst : List α) (d : Nat), first ≤ last → last ≤ src.length →
      d + (last - first) ≤ dst.length → last - first < fuel →
      ∃ dst1, while_ne (copy_step src) fuel first last (dst, d)
          = .ok (dst1, d + (last - first)) ∧
        dst1.length = dst.length ∧
        ∀ j, dst1[j]? =
          if d ≤ j ∧ j < d + (last - first) then src[first + (j - d)]? else dst[j]? := by
  intro fuel
  induction fuel with
  | zero => intro first dst d _ _ _ h; omega
  | succ n ih =>
    intro first dst d h1 h2 h3 h4
    by_cases hfl : first = last
    · subst hfl
      refine ⟨dst, by simp [while_ne], rfl, ?_⟩
      intro j
      have : ¬ (d ≤ j ∧ j < d + (first - first)) := by omega
      rw [if_neg this]
    · have hlt : first < src.length := by omega
      have hd : d < dst.length := by omega
      obtain ⟨dst1, he, hl, hj⟩ :=
        ih (first + 1) (dst.set d (src[first])) (d + 1) (by omega) h2
          (by simp only [List.length_set]; omega) (by omega)
      have hidx : d + 1 + (last - (first + 1)) = d + (last - first) := by omega
      refine ⟨dst1, ?_, by simpa using hl, ?_⟩
      · rw [while_ne, if_pos hfl]
        have hs : copy_step src first (dst, d) = .ok (dst.set d (src[first]), d + 1) := by
          simp [copy_step, load_of_lt hlt, store_eq_ok _ hd]
        rw [hs]
        simpa only [hidx] using he
      · intro j
        rw [hj j, List.getElem?_set]
        by_cases hjd : d = j
        · subst hjd
          have c1 : ¬ (d + 1 ≤ d ∧ d < d + 1 + (last - (first + 1))) := by omega
          have c2 : d ≤ d ∧ d < d + (last - first) := by omega
          simp [c1, c2, hd, hlt]
        · by_cases hin : d + 1 ≤ j ∧ j < d + 1 + (last - (first + 1))
          · have c2 : d ≤ j ∧ j < d + (last - first) := by omega
            have c3 : first + 1 + (j - (d + 1)) = first + (j - d) := by omega
            simp [hin, c2, c3]
          · have c2 : ¬ (d ≤ j ∧ j < d + (last - first)) := by omega
            simp [hin, c2, hjd]

/-- Forward move of `src[first, last)` to the cells of another array starting at `d`:
the destination receives the values, the source cells are left moved-from. -/
theorem move_loop_spec {α : Type} [Element α] (last : Nat) :
    ∀ (fuel first : Nat) (src dst : List α) (d : Nat), first ≤ last → last ≤ src.length →
      d + (last - first) ≤ dst.length → last - first < fuel →
      ∃ src1 dst1, while_ne move_step fuel first last (src, dst, d)
          = .ok (src1, dst1, d + (last - first)) ∧
        src1.length = src.length ∧ dst1.length = dst.length ∧
        (∀ j, dst1[j]? =
          if d ≤ j ∧ j < d + (last - first) then src[first + (j - d)]? else dst[j]?) ∧
        (∀ j, src1[j]? =
          if first ≤ j ∧ j < last then (src[j]?).map Element.moved_from else src[j]?) := by
  intro fuel
  induction fuel with
  | zero => intro first src dst d _ _ _ h; omega
  | succ n ih =>
    intro first src dst d h1 h2 h3 h4
    by_cases hfl : first = last
    · subst hfl
      refine ⟨src, dst, by simp [while_ne], rfl, rfl, ?_, ?_⟩
      · intro j
        have : ¬ (d ≤ j ∧ j < d + (first - first)) := by omega
        rw [if_neg this]
      · intro j
        have : ¬ (first ≤ j ∧ j < first) := by omega
        simp [this]
    · have hlt : first < src.length := by omega
      have hd : d < dst.length := by omega
      obtain ⟨src1, dst1, he, hls, hld, hjd, hjs⟩ :=
        ih (first + 1) (src.set first (Element.moved_from (src[first])))
          (dst.set d (src[first])) (d + 1) (by omega)
          (by simp only [List.length_set]; omega)
          (by simp only [List.length_set]; omega) (by omega)
      have hidx : d + 1 + (last - (first + 1)) = d + (last - first) := by omega
      refine ⟨src1, dst1, ?_, by simpa using hls, by simpa using hld, ?_, ?_⟩
      · rw [while_ne, if_pos hfl]
        have hs : move_step first (src, dst, d)
            = .ok (src.set first (Element.moved_from (src[first])),
                dst.set d (src[first]), d + 1) := by
          simp [move_step, load_of_lt hlt, store_eq_ok _ hd, store_eq_ok _ hlt]
        rw [hs]
        simpa only [hidx] using he
      · intro j
        rw [hjd j, List.getElem?_set]
        by_cases hj : d = j
        · subst hj
          have c1 : ¬ (d + 1 ≤ d ∧ d < d + 1 + (last - (first + 1))) := by omega
          have c2 : d ≤ d ∧ d < d + (last - first) := by omega
          simp [c1, c2, hd, hlt]
        · by_cases hin : d + 1 ≤ j ∧ j < d + 1 + (last - (first + 1))
          · have c2 : d ≤ j ∧ j < d + (last - first) := by omega
            have c3 : first + 1 + (j - (d + 1)) = first + (j - d) := by omega
            have c4 : first ≠ first + (j - d) := by omega
            simp [hin, c2, c3, List.getElem?_set, c4]
          · have c2 : ¬ (d ≤ j ∧ j < d + (last - first)) := by omega
            simp [hin, c2, hj]
      · intro j
        rw [hjs j, List.getElem?_set]
        by_cases hj : first = j
        · subst hj
          have c1 : ¬ (first + 1 ≤ first ∧ first < last) := by omega
          have c2 : first ≤ first ∧ first < last := by omega
          simp [c1, c2, hlt]
        · by_cases hin : first + 1 ≤ j ∧ j < last
          · have c2 : first ≤ j ∧ j < last := by omega
            simp [hin, c2, hj]
          · have c2 : ¬ (first ≤ j ∧ j < last) := by omega
            simp [hin, c2, hj]

theorem std_fill_spec {α : Type} (buf : List α) (first last : Nat) (val : α)
    (h1 : first ≤ last) (h2 : last ≤ buf.length) :
    ∃ buf1, std_fill buf first last val = .ok buf1 ∧ buf1.length = buf.length ∧
      ∀ j, buf1[j]? = if first ≤ j ∧ j < last then some val else buf[j]? :=
  fill_loop_spec val last (buf.length + 1) first buf h1 h2 (by omega)

theorem Fill_spec {α : Type} [Element α] (buf : List α) (first last : Nat)
    (h1 : first ≤ last) (h2 : last ≤ buf.length) :
    ∃ buf1, SimpleVector.Fill buf first last = .ok buf1 ∧ buf1.length = buf.length ∧
      ∀ j, buf1[j]? =
        if first ≤ j ∧ j < last then some (Element.value_init : α) else buf[j]? :=
  fill_loop_spec Element.value_init last (buf.length + 1) first buf h1 h2 (by omega)

theorem std_copy_spec {α : Type} (src : List α) (first last : Nat) (dst : List α) (d : Nat)
    (h1 : first ≤ last) (h2 : last ≤ src.length) (h3 : d + (last - first) ≤ dst.length) :
    ∃ dst1, std_copy src first last dst d = .ok dst1 ∧ dst1.length = dst.length ∧
      ∀ j, dst1[j]? =
        if d ≤ j ∧ j < d + (last - first) then src[first + (j - d)]? else dst[j]? := by
  obtain ⟨dst1, he, hl, hj⟩ :=
    copy_loop_spec src last (src.length + 1) first dst d h1 h2 h3 (by omega)
  exact ⟨dst1, by simp [std_copy, he], hl, hj⟩

theorem std_move_spec {α : Type} [Element α] (src : List α) (first last : Nat) (dst : List α)
    (d : Nat) (h1 : first ≤ last) (h2 : last ≤ src.length)
    (h3 : d + (last - first) ≤ dst.length) :
    ∃ src1 dst1, std_move src first last dst d = .ok (src1, dst1) ∧
      src1.length = src.length ∧ dst1.length = dst.length ∧
      (∀ j, dst1[j]? =
        if d ≤ j ∧ j < d + (last - first) then src[first + (j - d)]? else dst[j]?) ∧
      (∀ j, src1[j]? =
        if first ≤ j ∧ j < last then (src[j]?).map Element.moved_from else src[j]?) := by
  obtain ⟨src1, dst1, he, hls, hld, hjd, hjs⟩ :=
    move_loop_spec last (src.length + 1) first src dst d h1 h2 h3 (by omega)
  exact ⟨src1, dst1, by simp [std_move, he], hls, hld, hjd, hjs⟩

/-- Backward copy of `buf[first, last)` one cell to the right inside the same array. -/
theorem copy_backward_loop_spec {α : Type} (first : Nat) :
    ∀ (fuel : Nat) (buf : List α) (last : Nat), first ≤ last → last < buf.length →
      last - first < fuel →
      ∃ buf1, copy_backward_loop fuel buf first last (last + 1) = .ok buf1 ∧
        buf1.length = buf.length ∧
        ∀ j, buf1[j]? = if first < j ∧ j ≤ last then buf[j - 1]? else buf[j]? := by
  intro fuel
  induction fuel with
  | zero => intro buf last _ _ h; omega
  | succ n ih =>
    intro buf last h1 h2 h3
    by_cases hfl : first = last
    · subst hfl
      refine ⟨buf, by simp [copy_backward_loop], rfl, ?_⟩
      intro j
      have : ¬ (first < j ∧ j ≤ first) := by omega
      rw [if_neg this]
    · obtain ⟨l, rfl⟩ : ∃ l, last = l + 1 := ⟨last - 1, by omega⟩
      have hl1 : l < buf.length := by omega
      obtain ⟨buf1, he, hl, hj⟩ :=
        ih (buf.set (l + 1) (buf[l])) l (by omega) (by simp only [List.length_set]; omega)
          (by omega)
      refine ⟨buf1, ?_, by simpa using hl, ?_⟩
      · rw [copy_backward_loop, if_pos hfl]
        simp only [load_of_lt hl1, store_eq_ok _ h2]
        exact he
      · intro j
        rw [hj j]
        by_cases hjl : j = l + 1
        · subst hjl
          have c1 : ¬ (first < l + 1 ∧ l + 1 ≤ l) := by omega
          have c2 : first < l + 1 ∧ l + 1 ≤ l + 1 := by omega
          simp [c1, c2, h2, hl1]
        · by_cases hin : first < j ∧ j ≤ l
          · have c2 : first < j ∧ j ≤ l + 1 := by omega
            have c3 : l + 1 ≠ j - 1 := by omega
            simp [hin, c2, c3]
          · have c2 : ¬ (first < j ∧ j ≤ l + 1) := by omega
            have c3 : l + 1 ≠ j := by omega
            simp [hin, c2, c3]

theorem std_copy_backward_spec {α : Type} (buf : List α) (first last : Nat)
    (h1 : first ≤ last) (h2 : last < buf.length) :
    ∃ buf1, std_copy_backward buf first last (last + 1) = .ok buf1 ∧
      buf1.length = buf.length ∧
      ∀ j, buf1[j]? = if first < j ∧ j ≤ last then buf[j - 1]? else buf[j]? :=
  copy_backward_loop_spec first (buf.length + 1) buf last h1 h2 (by omega)

/-- The loop of `Erase`: every cell of `(first, last)` moves one cell to the left; the
cells from `last` on are not touched. -/
theorem Erase_loop_spec {α : Type} [Element α] (last : Nat) :
    ∀ (fuel first : Nat) (buf : List α), first + 1 ≤ last → last ≤ buf.length →
      last - (first + 1) < fuel →
      ∃ buf1, while_ne SimpleVector.Erase_step fuel (first + 1) last (buf, first)
          = .ok (buf1, last - 1) ∧
        buf1.length = buf.length ∧
        (∀ j, j < last - 1 → buf1[j]? = if first ≤ j then buf[j + 1]? else buf[j]?) ∧
        (∀ j, last ≤ j → buf1[j]? = buf[j]?) := by
  intro fuel
  induction fuel with
  | zero => intro first buf _ _ h; omega
  | succ n ih =>
    intro first buf h1 h2 h3
    by_cases hfl : first + 1 = last
    · subst hfl
      refine ⟨buf, by simp [while_ne], rfl, ?_, ?_⟩
      · intro j hj
        have : ¬ first ≤ j := by omega
        rw [if_neg this]
      · intro j _
        rfl
    · have hs : first + 1 < buf.length := by omega
      have hf : first < buf.length := by omega
      obtain ⟨buf1, he, hl, hlo, hhi⟩ :=
        ih (first + 1)
          ((buf.set first (buf[first + 1])).set (first + 1)
            (Element.moved_from (buf[first + 1])))
          (by omega) (by simp only [List.length_set]; omega) (by omega)
      refine ⟨buf1, ?_, by simpa using hl, ?_, ?_⟩
      · rw [while_ne, if_pos hfl]
        have hstep : SimpleVector.Erase_step (first + 1) (buf, first)
            = .ok ((buf.set first (buf[first + 1])).set (first + 1)
                (Element.moved_from (buf[first + 1])), first + 1) := by
          simp [SimpleVector.Erase_step, load_of_lt hs, store_eq_ok _ hf, store_eq_ok, hs]
        rw [hstep]
        exact he
      · intro j hj
        rw [hlo j hj]
        by_cases c1 : first + 1 ≤ j
        · have c2 : first ≤ j := by omega
          have c3 : first + 1 ≠ j + 1 := by omega
          have c4 : first ≠ j + 1 := by omega
          simp [c1, c2, c3, c4]
        · by_cases c2 : first = j
          · subst c2
            simp [hf]
          · have c3 : ¬ first ≤ j := by omega
            have c4 : first + 1 ≠ j := by omega
            simp [c1, c3, c2, c4]
      · intro j hj
        rw [hhi j hj]
        have c3 : first + 1 ≠ j := by omega
        have c4 : first ≠ j := by omega
        simp [c3, c4]

theorem load_eq_ok_iff {α : Type} {buf : List α} {i : Nat} {x : α} :
    load buf i = .ok x ↔ buf[i]? = some x := by
  unfold load
  cases h : buf[i]? <;> simp

theorem alloc_raw {α : Type} [Element α] (n : Nat) :
    (ArrayPtr.alloc n : ArrayPtr α).raw_ptr_ = List.replicate n Element.default_init := by
  unfold ArrayPtr.alloc ArrayPtr.null
  by_cases h : n = 0 <;> simp [h]

theorem alloc_length {α : Type} [Element α] (n : Nat) :
    (ArrayPtr.alloc n : ArrayPtr α).raw_ptr_.length = n := by
  simp [alloc_raw]

namespace SimpleVector

variable {α : Type}

/-- What `PushBack` does to a well-formed container, cell by cell. -/
theorem PushBack_spec [Element α] (v : SimpleVector α) (x : α) (h : v.WellFormed) :
    ∃ w, v.PushBack x = .ok w ∧ w.WellFormed ∧ w.size_ = v.size_ + 1 ∧
      w.capacity_ = (if v.size_ < v.capacity_ then v.capacity_
        else if v.capacity_ = 0 then 1 else v.capacity_ * 2) ∧
      (∀ j, j < v.size_ → w.items_.raw_ptr_[j]? = v.items_.raw_ptr_[j]?) ∧
      w.items_.raw_ptr_[v.size_]? = some x := by
  obtain ⟨h1, h2⟩ := h
  by_cases hlt : v.size_ < v.capacity_
  · have hs : v.size_ < v.items_.raw_ptr_.length := by omega
    refine ⟨{ v with items_ := ⟨v.items_.raw_ptr_.set v.size_ x⟩, size_ := v.size_ + 1 },
      ?_, ?_, rfl, ?_, ?_, ?_⟩
    · simp [PushBack, hlt, ArrayPtr.assign, store_eq_ok x hs]
    · constructor
      · show v.size_ + 1 ≤ v.capacity_
        omega
      · show v.capacity_ = (v.items_.raw_ptr_.set v.size_ x).length
        simpa using h2
    · simp [hlt]
    · intro j hj
      have : v.size_ ≠ j := by omega
      simp [this]
    · simp [hs]
  · have hsz : v.size_ = v.capacity_ := by omega
    obtain ⟨buf, he, hl, hj⟩ := std_copy_spec v.items_.raw_ptr_ 0 v.size_
      (ArrayPtr.alloc (if v.capacity_ = 0 then 1 else v.capacity_ * 2) : ArrayPtr α).raw_ptr_ 0
      (Nat.zero_le _) (by omega) (by rw [alloc_length]; split <;> omega)
    rw [alloc_length] at hl
    have hs : v.size_ < buf.length := by rw [hl]; split <;> omega
    refine ⟨⟨⟨buf.set v.size_ x⟩, v.size_ + 1,
      if v.capacity_ = 0 then 1 else v.capacity_ * 2⟩, ?_, ?_, rfl, ?_, ?_, ?_⟩
    · simp [PushBack, hlt, ArrayPtr.assign, ArrayPtr.Get, ArrayPtr.swap, begin, end_, he,
        store_eq_ok x hs]
    · constructor
      · show v.size_ + 1 ≤ (if v.capacity_ = 0 then 1 else v.capacity_ * 2)
        split <;> omega
      · show (if v.capacity_ = 0 then 1 else v.capacity_ * 2) = (buf.set v.size_ x).length
        simpa using hl.symm
    · simp [hlt]
    · intro j hjs
      have c1 : v.size_ ≠ j := by omega
      have c2 : 0 ≤ j ∧ j < 0 + (v.size_ - 0) := by omega
      show (buf.set v.size_ x)[j]? = _
      rw [List.getElem?_set_ne c1, hj j, if_pos c2]
      simp
    · show (buf.set v.size_ x)[v.size_]? = _
      simp [hs]

/-- What `PushBack(Type&&)` does to a well-formed container, cell by cell. -/
theorem PushBack_move_spec [Element α] (v : SimpleVector α) (x : α) (h : v.WellFormed) :
    ∃ w, v.PushBack_move x = .ok w ∧ w.WellFormed ∧ w.size_ = v.size_ + 1 ∧
      w.capacity_ = (if v.size_ < v.capacity_ then v.capacity_
        else if v.capacity_ = 0 then 1 else v.capacity_ * 2) ∧
      (∀ j, j < v.size_ → w.items_.raw_ptr_[j]? = v.items_.raw_ptr_[j]?) ∧
      w.items_.raw_ptr_[v.size_]? = some x := by
  obtain ⟨h1, h2⟩ := h
  by_cases hlt : v.size_ < v.capacity_
  · have hs : v.size_ < v.items_.raw_ptr_.length := by omega
    refine ⟨{ v with items_ := ⟨v.items_.raw_ptr_.set v.size_ x⟩, size_ := v.size_ + 1 },
      ?_, ?_, rfl, ?_, ?_, ?_⟩
    · simp [PushBack_move, hlt, ArrayPtr.assign, store_eq_ok x hs]
    · constructor
      · show v.size_ + 1 ≤ v.capacity_
        omega
      · show v.capacity_ = (v.items_.raw_ptr_.set v.size_ x).length
        simpa using h2
    · simp [hlt]
    · intro j hj
      have : v.size_ ≠ j := by omega
      simp [this]
    · simp [hs]
  · have hsz : v.size_ = v.capacity_ := by omega
    obtain ⟨old, buf, he, _, hl, hj, _⟩ := std_move_spec v.items_.raw_ptr_ 0 v.size_
      (ArrayPtr.alloc (if v.capacity_ = 0 then 1 else v.capacity_ * 2) : ArrayPtr α).raw_ptr_ 0
      (Nat.zero_le _) (by omega) (by rw [alloc_length]; split <;> omega)
    rw [alloc_length] at hl
    have hs : v.size_ < buf.length := by rw [hl]; split <;> omega
    refine ⟨⟨⟨buf.set v.size_ x⟩, v.size_ + 1,
      if v.capacity_ = 0 then 1 else v.capacity_ * 2⟩, ?_, ?_, rfl, ?_, ?_, ?_⟩
    · simp [PushBack_move, hlt, ArrayPtr.assign, ArrayPtr.Get, ArrayPtr.swap, begin, end_, he,
        store_eq_ok x hs]
    · constructor
      · show v.size_ + 1 ≤ (if v.capacity_ = 0 then 1 else v.capacity_ * 2)
        split <;> omega
      · show (if v.capacity_ = 0 then 1 else v.capacity_ * 2) = (buf.set v.size_ x).length
        simpa using hl.symm
    · simp [hlt]
    · intro j hjs
      have c1 : v.size_ ≠ j := by omega
      have c2 : 0 ≤ j ∧ j < 0 + (v.size_ - 0) := by omega
      show (buf.set v.size_ x)[j]? = _
      rw [List.getElem?_set_ne c1, hj j, if_pos c2]
      simp
    · show (buf.set v.size_ x)[v.size_]? = _
      simp [hs]

/-- Reading a cell below the allocated length with `operator[]`. -/
theorem index_eq_ok_iff (v : SimpleVector α) (i : Nat) (x : α) :
    v.index i = .ok x ↔ v.items_.raw_ptr_[i]? = some x := by
  unfold index ArrayPtr.index
  exact load_eq_ok_iff

/-! ## Contracts of the operations -/

/-- C1: `At(i)` throws `std::out_of_range` exactly when `i >= size` (hence always on an
empty container, also for `i = 0`); when `i < size` (the live cells being allocated) it
succeeds, returns the element `operator[](i)` returns, and hands back the very same
container: size, capacity and every cell are unchanged. -/
theorem At_contract (v : SimpleVector α) (i : Nat) :
    ((∃ what, v.At i = .error (.out_of_range what)) ↔ i ≥ v.size_) ∧
    (i ≥ v.size_ → v.At i = .error (.out_of_range "The index is outside the array")) ∧
    ((empty : SimpleVector α).At i = .error (.out_of_range "The index is outside the array")) ∧
    (v.size_ ≤ v.items_.raw_ptr_.length → i < v.size_ →
      ∃ x, v.index i = .ok x ∧ v.At i = .ok (x, v)) := by
  refine ⟨⟨?_, ?_⟩, ?_, ?_, ?_⟩
  · rintro ⟨what, hw⟩
    by_contra hc
    unfold At at hw
    rw [if_neg hc] at hw
    cases hx : v.items_.index i with
    | ok x => rw [hx] at hw; cases hw
    | error e =>
      rw [hx] at hw
      unfold ArrayPtr.index load at hx
      cases hb : v.items_.raw_ptr_[i]? with
      | some y => rw [hb] at hx; cases hx
      | none =>
        rw [hb] at hx
        cases hx
        cases hw
  · intro hi
    exact ⟨"The index is outside the array", by simp [At, hi]⟩
  · intro hi
    simp [At, hi]
  · simp [At, empty]
  · intro hlen hi
    have hlt : i < v.items_.raw_ptr_.length := by omega
    refine ⟨v.items_.raw_ptr_[i], ?_, ?_⟩
    · simp [index, ArrayPtr.index, load_of_lt hlt]
    · have : ¬ i ≥ v.size_ := by omega
      simp [At, this, ArrayPtr.index, load_of_lt hlt]

theorem At_contract_witness :
    ∃ x, (⟨⟨[1, 2, 3, 0]⟩, 3, 4⟩ : SimpleVector Nat).index 1 = .ok x ∧
      (⟨⟨[1, 2, 3, 0]⟩, 3, 4⟩ : SimpleVector Nat).At 1 = .ok (x, ⟨⟨[1, 2, 3, 0]⟩, 3, 4⟩) :=
  (At_contract (⟨⟨[1, 2, 3, 0]⟩, 3, 4⟩ : SimpleVector Nat) 1).2.2.2 (by decide) (by decide)

/-- C2: on a well-formed container (`size <= capacity`, `capacity` = allocated length)
both overloads of `PushBack(x)` return, leave `GetSize() == old_size + 1`, the element
at index `old_size` equal to `x`, and every element at an index below `old_size` as it
was; this covers the in-place branch and the reallocating branch alike. -/
theorem PushBack_round_trip [Element α] (v : SimpleVector α) (x : α) (h : v.WellFormed) :
    (∃ w, v.PushBack x = .ok w ∧ w.GetSize = v.GetSize + 1 ∧
      w.index v.GetSize = .ok x ∧
      ∀ i, i < v.GetSize → ∃ y, v.index i = .ok y ∧ w.index i = .ok y) ∧
    (∃ w, v.PushBack_move x = .ok w ∧ w.GetSize = v.GetSize + 1 ∧
      w.index v.GetSize = .ok x ∧
      ∀ i, i < v.GetSize → ∃ y, v.index i = .ok y ∧ w.index i = .ok y) := by
  have hlen : v.size_ ≤ v.items_.raw_ptr_.length := by
    obtain ⟨h1, h2⟩ := h
    omega
  constructor
  · obtain ⟨w, he, _, hs, _, hlo, hx⟩ := PushBack_spec v x h
    refine ⟨w, he, hs, (index_eq_ok_iff _ _ _).2 hx, ?_⟩
    intro i hi
    have hlt : i < v.items_.raw_ptr_.length := by unfold GetSize at hi; omega
    refine ⟨v.items_.raw_ptr_[i], (index_eq_ok_iff _ _ _).2 (by simp [hlt]), ?_⟩
    rw [index_eq_ok_iff, hlo i hi]
    simp [hlt]
  · obtain ⟨w, he, _, hs, _, hlo, hx⟩ := PushBack_move_spec v x h
    refine ⟨w, he, hs, (index_eq_ok_iff _ _ _).2 hx, ?_⟩
    intro i hi
    have hlt : i < v.items_.raw_ptr_.length := by unfold GetSize at hi; omega
    refine ⟨v.items_.raw_ptr_[i], (index_eq_ok_iff _ _ _).2 (by simp [hlt]), ?_⟩
    rw [index_eq_ok_iff, hlo i hi]
    simp [hlt]

theorem PushBack_round_trip_witness :
    (∃ w, (⟨⟨[1, 2]⟩, 2, 2⟩ : SimpleVector Nat).PushBack 7 = .ok w ∧ w.GetSize = 2 + 1 ∧
      w.index 2 = .ok 7 ∧
      ∀ i, i < 2 → ∃ y, (⟨⟨[1, 2]⟩, 2, 2⟩ : SimpleVector Nat).index i = .ok y ∧
        w.index i = .ok y) ∧
    (∃ w, (⟨⟨[1, 2]⟩, 2, 2⟩ : SimpleVector Nat).PushBack_move 7 = .ok w ∧ w.GetSize = 2 + 1 ∧
      w.index 2 = .ok 7 ∧
      ∀ i, i < 2 → ∃ y, (⟨⟨[1, 2]⟩, 2, 2⟩ : SimpleVector Nat).index i = .ok y ∧
        w.index i = .ok y) :=
  PushBack_round_trip (⟨⟨[1, 2]⟩, 2, 2⟩ : SimpleVector Nat) 7 (by decide)

/-- One `PushBack` keeps the doubling shape and never lowers the capacity. -/
theorem PushBack_Doubled [Element α] (v : SimpleVector α) (x : α) (h : v.WellFormed)
    (hd : v.Doubled) :
    ∃ w, v.PushBack x = .ok w ∧ w.WellFormed ∧ w.Doubled ∧ w.size_ = v.size_ + 1 ∧
      v.capacity_ ≤ w.capacity_ := by
  obtain ⟨w, he, hw, hs, hc, _, _⟩ := PushBack_spec v x h
  obtain ⟨h1, h2⟩ := h
  refine ⟨w, he, hw, ?_, hs, ?_⟩
  · rcases hd with ⟨hs0, hc0⟩ | ⟨hs1, hlt, e, hpow⟩
    · right
      have hc1 : w.capacity_ = 1 := by rw [hc]; simp [hs0, hc0]
      exact ⟨by omega, by omega, 0, by simpa using hc1⟩
    · right
      by_cases hb : v.size_ < v.capacity_
      · rw [if_pos hb] at hc
        exact ⟨by omega, by omega, e, by rw [hc, hpow]⟩
      · have hpos : 0 < 2 ^ e := Nat.pow_pos (by decide)
        have hne : ¬ v.capacity_ = 0 := by omega
        rw [if_neg hb, if_neg hne] at hc
        exact ⟨by omega, by omega, e + 1, by rw [hc, hpow, Nat.pow_succ]⟩
  · rw [hc]
    split
    · exact Nat.le_refl _
    · split <;> omega

/-- Any number of `PushBack` calls on a well-formed container of the doubling shape. -/
theorem PushBack_all_Doubled [Element α] (xs : List α) :
    ∀ v : SimpleVector α, v.WellFormed → v.Doubled →
      ∃ w, v.PushBack_all xs = .ok w ∧ w.WellFormed ∧ w.Doubled ∧
        w.size_ = v.size_ + xs.length := by
  induction xs with
  | nil => intro v h hd; exact ⟨v, rfl, h, hd, rfl⟩
  | cons x xs ih =>
    intro v h hd
    obtain ⟨w, he, hw, hdw, hs, _⟩ := PushBack_Doubled v x h hd
    obtain ⟨u, hu, huw, hud, hus⟩ := ih w hw hdw
    refine ⟨u, ?_, huw, hud, ?_⟩
    · simp [PushBack_all, he, hu]
    · rw [hus, hs, List.length_cons]
      omega

theorem empty_WellFormed : (empty : SimpleVector α).WellFormed := by
  simp [WellFormed, empty, ArrayPtr.null]

/-- C3: after `k >= 1` consecutive `PushBack` calls on a default-constructed container
the size is `k` and the capacity is the smallest power of two that is `>= k` (so the
capacities seen are 1, 2, 4, 8, ...), and one more `PushBack` never lowers the capacity
(`size_t` overflow ignored). -/
theorem PushBack_capacity_doubling [Element α] (xs : List α) :
    ∃ w, (empty : SimpleVector α).PushBack_all xs = .ok w ∧ w.GetSize = xs.length ∧
      (1 ≤ xs.length →
        (∃ e, w.GetCapacity = 2 ^ e) ∧ xs.length ≤ w.GetCapacity ∧
        ∀ e, xs.length ≤ 2 ^ e → w.GetCapacity ≤ 2 ^ e) ∧
      ∀ x, ∃ w2, w.PushBack x = .ok w2 ∧
        (empty : SimpleVector α).PushBack_all (xs ++ [x]) = .ok w2 ∧
        w.GetCapacity ≤ w2.GetCapacity := by
  obtain ⟨w, he, hw, hd, hs⟩ :=
    PushBack_all_Doubled xs (empty : SimpleVector α) empty_WellFormed
      (Or.inl ⟨rfl, rfl⟩)
  have hsz : w.size_ = xs.length := by simpa [empty] using hs
  refine ⟨w, he, hsz, ?_, ?_⟩
  · intro hk
    rcases hd with ⟨hs0, _⟩ | ⟨_, hlt, e, hpow⟩
    · omega
    · refine ⟨⟨e, hpow⟩, ?_, ?_⟩
      · have := hw.1
        unfold GetCapacity
        omega
      · intro m hm
        unfold GetCapacity
        rw [hpow]
        have h1 : 2 ^ e < 2 ^ (m + 1) := by
          rw [Nat.pow_succ]
          omega
        have h2 : e < m + 1 := (Nat.pow_lt_pow_iff_right (by decide)).1 h1
        exact Nat.pow_le_pow_right (by decide) (by omega)
  · intro x
    obtain ⟨w2, he2, _, _, _, hmono⟩ := PushBack_Doubled w x hw hd
    refine ⟨w2, he2, ?_, hmono⟩
    have key : ∀ (ys : List α) (u u1 : SimpleVector α), u.PushBack_all ys = .ok u1 →
        u.PushBack_all (ys ++ [x]) = u1.PushBack x := by
      intro ys
      induction ys with
      | nil =>
        intro u u1 h
        simp only [PushBack_all] at h
        cases h
        simp only [List.nil_append, PushBack_all]
        cases u.PushBack x <;> rfl
      | cons y ys ih =>
        intro u u1 h
        simp only [List.cons_append, PushBack_all] at h ⊢
        cases hy : u.PushBack y with
        | ok u2 => rw [hy] at h; simp only [] at h ⊢; exact ih u2 u1 h
        | error e => rw [hy] at h; cases h
    rw [key xs _ w he, he2]

theorem PushBack_capacity_doubling_witness :
    ∃ w, (empty : SimpleVector Nat).PushBack_all [10, 20, 30] = .ok w ∧
      (∃ e, w.GetCapacity = 2 ^ e) ∧ [10, 20, 30].length ≤ w.GetCapacity ∧
      ∀ e, [10, 20, 30].length ≤ 2 ^ e → w.GetCapacity ≤ 2 ^ e := by
  obtain ⟨w, he, _, h, _⟩ := PushBack_capacity_doubling ([10, 20, 30] : List Nat)
  exact ⟨w, he, h (by decide)⟩

/-- What `Resize` does to a well-formed container, cell by cell. -/
theorem Resize_spec [Element α] (v : SimpleVector α) (n : Nat) (h : v.WellFormed) :
    ∃ w, v.Resize n = .ok w ∧ w.WellFormed ∧ w.size_ = n ∧
      w.capacity_ = (if n ≤ v.capacity_ then v.capacity_ else max n (v.capacity_ * 2)) ∧
      (n ≤ v.size_ → w = { v with size_ := n }) ∧
      (∀ j, j < v.size_ → j < n → w.items_.raw_ptr_[j]? = v.items_.raw_ptr_[j]?) ∧
      (∀ j, v.size_ ≤ j → j < n → w.items_.raw_ptr_[j]? = some Element.value_init) := by
  obtain ⟨h1, h2⟩ := h
  by_cases hn : n ≤ v.size_
  · have hc : n ≤ v.capacity_ := by omega
    refine ⟨{ v with size_ := n }, by simp [Resize, hn], ⟨?_, h2⟩, rfl, by simp [hc],
      fun _ => rfl, fun j _ _ => rfl, ?_⟩
    · show n ≤ v.capacity_
      omega
    · intro j hj1 hj2
      omega
  · by_cases hc : n ≤ v.capacity_
    · obtain ⟨buf, he, hl, hj⟩ := Fill_spec v.items_.raw_ptr_ v.size_ n (by omega) (by omega)
      refine ⟨{ v with items_ := ⟨buf⟩, size_ := n }, ?_, ⟨hc, ?_⟩, rfl, by simp [hc],
        fun hh => absurd hh hn, ?_, ?_⟩
      · simp [Resize, hn, hc, begin, ArrayPtr.Get, he]
      · show v.capacity_ = buf.length
        omega
      · intro j hj1 _
        have c : ¬ (v.size_ ≤ j ∧ j < n) := by omega
        show buf[j]? = _
        rw [hj j, if_neg c]
      · intro j hj1 hj2
        have c : v.size_ ≤ j ∧ j < n := by omega
        show buf[j]? = _
        rw [hj j, if_pos c]
    · have hmax : n ≤ max n (v.capacity_ * 2) := Nat.le_max_left _ _
      obtain ⟨old, buf, he, _, hl, hj, _⟩ := std_move_spec v.items_.raw_ptr_ 0 v.size_
        (ArrayPtr.alloc (max n (v.capacity_ * 2)) : ArrayPtr α).raw_ptr_ 0
        (Nat.zero_le _) (by omega) (by rw [alloc_length]; omega)
      rw [alloc_length] at hl
      obtain ⟨buf1, he1, hl1, hj1⟩ := Fill_spec buf v.size_ n (by omega) (by omega)
      refine ⟨⟨⟨buf1⟩, n, max n (v.capacity_ * 2)⟩, ?_, ⟨hmax, ?_⟩, rfl, by simp [hc],
        fun hh => absurd hh hn, ?_, ?_⟩
      · simp [Resize, hn, hc, begin, end_, ArrayPtr.Get, ArrayPtr.swap, he, he1]
      · show max n (v.capacity_ * 2) = buf1.length
        omega
      · intro j hjs _
        have c : ¬ (v.size_ ≤ j ∧ j < n) := by omega
        have c2 : 0 ≤ j ∧ j < 0 + (v.size_ - 0) := by omega
        show buf1[j]? = _
        rw [hj1 j, if_neg c, hj j, if_pos c2]
        simp
      · intro j hjs hjn
        have c : v.size_ ≤ j ∧ j < n := by omega
        show buf1[j]? = _
        rw [hj1 j, if_pos c]

/-- What `Erase` does when the position is a live one and the live cells are
allocated, cell by cell. -/
theorem Erase_spec [Element α] (v : SimpleVector α) (p : Nat)
    (hlen : v.size_ ≤ v.items_.raw_ptr_.length) (hp : p < v.size_) :
    ∃ w, v.Erase p = .ok (p, w) ∧ w.size_ = v.size_ - 1 ∧ w.capacity_ = v.capacity_ ∧
      w.items_.raw_ptr_.length = v.items_.raw_ptr_.length ∧
      (∀ j, j < v.size_ - 1 →
        w.items_.raw_ptr_[j]? =
          if p ≤ j then v.items_.raw_ptr_[j + 1]? else v.items_.raw_ptr_[j]?) ∧
      (∀ j, v.size_ ≤ j → w.items_.raw_ptr_[j]? = v.items_.raw_ptr_[j]?) := by
  obtain ⟨buf, he, hl, hlo, hhi⟩ :=
    Erase_loop_spec v.size_ (v.items_.raw_ptr_.length + 1) p v.items_.raw_ptr_
      (by omega) hlen (by omega)
  have hne : ¬ v.size_ = 0 := by omega
  refine ⟨{ v with items_ := ⟨buf⟩, size_ := v.size_ - 1 }, ?_, rfl, rfl, hl, hlo, hhi⟩
  simp [Erase, end_, ArrayPtr.Get, he, hne]

/-- What `Reserve` does when `size <= capacity` and the live cells are allocated. -/
theorem Reserve_spec [Element α] (v : SimpleVector α) (n : Nat)
    (hcap : v.size_ ≤ v.capacity_) (hlen : v.size_ ≤ v.items_.raw_ptr_.length) :
    ∃ w, v.Reserve n = .ok w ∧ w.size_ = v.size_ ∧
      w.capacity_ = (if v.capacity_ < n then n else v.capacity_) ∧
      (v.capacity_ < n → w.items_.raw_ptr_.length = n) ∧
      (n ≤ v.capacity_ → w = v) ∧
      (∀ j, j < v.size_ → w.items_.raw_ptr_[j]? = v.items_.raw_ptr_[j]?) := by
  by_cases hn : v.capacity_ < n
  · obtain ⟨old, buf, he, _, hl, hj, _⟩ := std_move_spec v.items_.raw_ptr_ 0 v.size_
      (ArrayPtr.alloc n : ArrayPtr α).raw_ptr_ 0
      (Nat.zero_le _) (by omega) (by rw [alloc_length]; omega)
    rw [alloc_length] at hl
    refine ⟨{ v with items_ := ⟨buf⟩, capacity_ := n }, ?_, rfl, by simp [hn],
      fun _ => hl, fun hh => by omega, ?_⟩
    · simp [Reserve, hn, begin, end_, ArrayPtr.Get, ArrayPtr.swap, he]
    · intro j hjs
      have c2 : 0 ≤ j ∧ j < 0 + (v.size_ - 0) := by omega
      show buf[j]? = _
      rw [hj j, if_pos c2]
      simp
  · refine ⟨v, by simp [Reserve, hn], rfl, by simp [hn], fun hh => absurd hh hn,
      fun _ => rfl, fun j _ => rfl⟩

/-- What the by-copy `Insert` does to a well-formed container at a position
`p <= size`, cell by cell. -/
theorem Insert_spec [Element α] (v : SimpleVector α) (p : Nat) (x : α) (h : v.WellFormed)
    (hp : p ≤ v.size_) :
    ∃ w, v.Insert p x = .ok (p, w) ∧ w.WellFormed ∧ w.size_ = v.size_ + 1 ∧
      w.capacity_ = (if v.size_ < v.capacity_ then v.capacity_
        else if v.capacity_ = 0 then 1 else v.capacity_ * 2) ∧
      (∀ j, j < p → w.items_.raw_ptr_[j]? = v.items_.raw_ptr_[j]?) ∧
      w.items_.raw_ptr_[p]? = some x ∧
      (∀ j, p < j → j ≤ v.size_ → w.items_.raw_ptr_[j]? = v.items_.raw_ptr_[j - 1]?) := by
  obtain ⟨h1, h2⟩ := h
  by_cases hlt : v.size_ < v.capacity_
  · obtain ⟨buf, he, hl, hj⟩ :=
      std_copy_backward_spec v.items_.raw_ptr_ p v.size_ hp (by omega)
    have hpl : p < buf.length := by omega
    refine ⟨{ v with items_ := ⟨buf.set p x⟩, size_ := v.size_ + 1 }, ?_, ⟨?_, ?_⟩, rfl,
      by simp [hlt], ?_, ?_, ?_⟩
    · simp [Insert, hlt, begin, end_, ArrayPtr.Get, he, store_eq_ok x hpl]
    · show v.size_ + 1 ≤ v.capacity_
      omega
    · show v.capacity_ = (buf.set p x).length
      simp only [List.length_set]
      omega
    · intro j hjp
      have c1 : p ≠ j := by omega
      have c2 : ¬ (p < j ∧ j ≤ v.size_) := by omega
      show (buf.set p x)[j]? = _
      rw [List.getElem?_set_ne c1, hj j, if_neg c2]
    · show (buf.set p x)[p]? = _
      simp [hpl]
    · intro j hj1 hj2
      have c1 : p ≠ j := by omega
      have c2 : p < j ∧ j ≤ v.size_ := by omega
      show (buf.set p x)[j]? = _
      rw [List.getElem?_set_ne c1, hj j, if_pos c2]
  · have hsz : v.size_ = v.capacity_ := by omega
    have hnc : v.size_ + 1 ≤ (if v.capacity_ = 0 then 1 else v.capacity_ * 2) := by
      split <;> omega
    obtain ⟨buf, he, hl, hj⟩ := std_copy_spec v.items_.raw_ptr_ 0 p
      (ArrayPtr.alloc (if v.capacity_ = 0 then 1 else v.capacity_ * 2) : ArrayPtr α).raw_ptr_ 0
      (Nat.zero_le _) (by omega) (by rw [alloc_length]; omega)
    rw [alloc_length] at hl
    have hpl : p < buf.length := by omega
    obtain ⟨buf2, he2, hl2, hj2⟩ := std_copy_spec v.items_.raw_ptr_ p v.size_
      (buf.set p x) (p + 1) hp (by omega) (by simp only [List.length_set]; omega)
    simp only [List.length_set] at hl2
    refine ⟨⟨⟨buf2⟩, v.size_ + 1, if v.capacity_ = 0 then 1 else v.capacity_ * 2⟩,
      ?_, ⟨hnc, ?_⟩, rfl, by simp [hlt], ?_, ?_, ?_⟩
    · simp [Insert, hlt, begin, end_, ArrayPtr.Get, ArrayPtr.swap, he, store_eq_ok x hpl,
        he2]
    · show (if v.capacity_ = 0 then 1 else v.capacity_ * 2) = buf2.length
      omega
    · intro j hjp
      have c1 : ¬ (p + 1 ≤ j ∧ j < p + 1 + (v.size_ - p)) := by omega
      have c2 : p ≠ j := by omega
      have c3 : 0 ≤ j ∧ j < 0 + (p - 0) := by omega
      show buf2[j]? = _
      rw [hj2 j, if_neg c1, List.getElem?_set_ne c2, hj j, if_pos c3]
      simp
    · have c1 : ¬ (p + 1 ≤ p ∧ p < p + 1 + (v.size_ - p)) := by omega
      show buf2[p]? = _
      rw [hj2 p, if_neg c1]
      simp [hpl]
    · intro j hj1 hjs
      have c1 : p + 1 ≤ j ∧ j < p + 1 + (v.size_ - p) := by omega
      have c2 : p + (j - (p + 1)) = j - 1 := by omega
      show buf2[j]? = _
      rw [hj2 j, if_pos c1, c2]

theorem live_getElem? (v : SimpleVector α) (j : Nat) :
    v.live[j]? = if j < v.size_ then v.items_.raw_ptr_[j]? else none := by
  unfold live
  exact List.getElem?_take

theorem live_length (v : SimpleVector α) (h : v.size_ ≤ v.items_.raw_ptr_.length) :
    v.live.length = v.size_ := by
  unfold live
  rw [List.length_take]
  omega

/-- The live sequence after an insertion, from the cells of the new array. -/
theorem live_insert (v w : SimpleVector α) (p : Nat) (x : α)
    (hlen : v.size_ ≤ v.items_.raw_ptr_.length) (hp : p ≤ v.size_)
    (hs : w.size_ = v.size_ + 1)
    (hlo : ∀ j, j < p → w.items_.raw_ptr_[j]? = v.items_.raw_ptr_[j]?)
    (hx : w.items_.raw_ptr_[p]? = some x)
    (hhi : ∀ j, p < j → j ≤ v.size_ → w.items_.raw_ptr_[j]? = v.items_.raw_ptr_[j - 1]?) :
    w.live = v.live.take p ++ [x] ++ v.live.drop p := by
  have hll := live_length v hlen
  apply List.ext_getElem?
  intro j
  have htl : (v.live.take p).length = p := by rw [List.length_take]; omega
  rw [live_getElem?, hs]
  by_cases c1 : j < p
  · have c2 : j < v.size_ + 1 := by omega
    have c3 : j < (v.live.take p ++ [x]).length := by simp [htl]; omega
    have c4 : j < (v.live.take p).length := by omega
    rw [if_pos c2, hlo j c1, List.getElem?_append_left c3, List.getElem?_append_left c4,
      List.getElem?_take_of_lt c1, live_getElem?, if_pos (by omega)]
  · by_cases c2 : j = p
    · subst c2
      have c3 : j < (v.live.take j ++ [x]).length := by simp [htl]
      have c4 : (v.live.take j).length ≤ j := by omega
      rw [if_pos (by omega), hx, List.getElem?_append_left c3,
        List.getElem?_append_right c4, htl]
      simp
    · have c3 : (v.live.take p ++ [x]).length ≤ j := by simp [htl]; omega
      have c5 : (v.live.take p ++ [x]).length = p + 1 := by simp [htl]
      rw [List.getElem?_append_right c3, c5, List.getElem?_drop, live_getElem?]
      have c6 : p + (j - (p + 1)) = j - 1 := by omega
      rw [c6]
      by_cases c7 : j < v.size_ + 1
      · rw [if_pos c7, if_pos (by omega), hhi j (by omega) (by omega)]
      · rw [if_neg c7, if_neg (by omega)]

/-- The live sequence after an erasure, from the cells of the new array. -/
theorem live_erase (v w : SimpleVector α) (p : Nat)
    (hlen : v.size_ ≤ v.items_.raw_ptr_.length) (hp : p < v.size_)
    (hs : w.size_ = v.size_ - 1)
    (hlo : ∀ j, j < v.size_ - 1 →
      w.items_.raw_ptr_[j]? =
        if p ≤ j then v.items_.raw_ptr_[j + 1]? else v.items_.raw_ptr_[j]?) :
    w.live = v.live.take p ++ v.live.drop (p + 1) := by
  have hll := live_length v hlen
  apply List.ext_getElem?
  intro j
  have htl : (v.live.take p).length = p := by rw [List.length_take]; omega
  rw [live_getElem?, hs]
  by_cases c1 : j < p
  · have c4 : j < (v.live.take p).length := by omega
    rw [if_pos (by omega), hlo j (by omega), if_neg (by omega),
      List.getElem?_append_left c4, List.getElem?_take_of_lt c1, live_getElem?,
      if_pos (by omega)]
  · have c4 : (v.live.take p).length ≤ j := by omega
    rw [List.getElem?_append_right c4, htl, List.getElem?_drop, live_getElem?]
    have c6 : p + 1 + (j - p) = j + 1 := by omega
    rw [c6]
    by_cases c7 : j < v.size_ - 1
    · rw [if_pos c7, if_pos (by omega), hlo j c7, if_pos (by omega)]
    · rw [if_neg c7, if_neg (by omega)]

/-- Reading back a cell that is allocated, with `operator[]`. -/
theorem index_unchanged (v w : SimpleVector α) (i : Nat)
    (hi : i < v.items_.raw_ptr_.length)
    (h : w.items_.raw_ptr_[i]? = v.items_.raw_ptr_[i]?) :
    ∃ y, v.index i = .ok y ∧ w.index i = .ok y := by
  refine ⟨v.items_.raw_ptr_[i], (index_eq_ok_iff _ _ _).2 (by simp [hi]), ?_⟩
  rw [index_eq_ok_iff, h]
  simp [hi]

/-- The content of a well-formed container after `Resize(n)`. -/
theorem Resize_cells [Element α] (v : SimpleVector α) (n : Nat) (h : v.WellFormed) :
    ∃ w, v.Resize n = .ok w ∧ w.GetSize = n ∧
      (∀ i, i < min n v.GetSize → ∃ y, v.index i = .ok y ∧ w.index i = .ok y) ∧
      (∀ i, v.GetSize ≤ i → i < n → w.index i = .ok Element.value_init) := by
  obtain ⟨w, he, _, hs, _, _, hlo, hhi⟩ := Resize_spec v n h
  obtain ⟨h1, h2⟩ := h
  refine ⟨w, he, hs, ?_, ?_⟩
  · intro i hi
    unfold GetSize at hi
    exact index_unchanged v w i (by omega) (hlo i (by omega) (by omega))
  · intro i hi1 hi2
    exact (index_eq_ok_iff _ _ _).2 (hhi i hi1 hi2)

/-- C5: on a well-formed container `Resize(n)` returns with size `n`, every element at
an index below `min(n, old_size)` as it was, and every element at an index in
`[old_size, n)` equal to `Type()`, whichever of the three branches runs.  In particular
a slot that held an older value is set to `Type()` again when it is exposed after
`Clear`, `PopBack`, `Erase` or a shrinking `Resize`. -/
theorem Resize_contents [Element α] (v : SimpleVector α) (n : Nat) (h : v.WellFormed) :
    (∃ w, v.Resize n = .ok w ∧ w.GetSize = n ∧
      (∀ i, i < min n v.GetSize → ∃ y, v.index i = .ok y ∧ w.index i = .ok y) ∧
      (∀ i, v.GetSize ≤ i → i < n → w.index i = .ok Element.value_init)) ∧
    (∃ w, v.Clear.Resize n = .ok w ∧ w.GetSize = n ∧
      ∀ i, i < n → w.index i = .ok Element.value_init) ∧
    (v.GetSize ≠ 0 → ∃ w, v.PopBack.Resize n = .ok w ∧ w.GetSize = n ∧
      ∀ i, v.GetSize - 1 ≤ i → i < n → w.index i = .ok Element.value_init) ∧
    (∀ p, p < v.GetSize → ∃ u w, v.Erase p = .ok (p, u) ∧ u.Resize n = .ok w ∧
      w.GetSize = n ∧
      ∀ i, v.GetSize - 1 ≤ i → i < n → w.index i = .ok Element.value_init) ∧
    (∀ m, m ≤ v.GetSize → ∃ u w, v.Resize m = .ok u ∧ u.Resize n = .ok w ∧
      w.GetSize = n ∧ ∀ i, m ≤ i → i < n → w.index i = .ok Element.value_init) := by
  have hwf := h
  obtain ⟨h1, h2⟩ := h
  refine ⟨Resize_cells v n hwf, ?_, ?_, ?_, ?_⟩
  · have hc : v.Clear.WellFormed := ⟨Nat.zero_le _, h2⟩
    obtain ⟨w, he, hs, _, hd⟩ := Resize_cells v.Clear n hc
    exact ⟨w, he, hs, fun i hi => hd i (Nat.zero_le _) hi⟩
  · intro hne
    unfold GetSize at hne
    have hsz : v.PopBack.size_ = v.size_ - 1 := by simp [PopBack, hne]
    have hc : v.PopBack.WellFormed := by
      refine ⟨?_, h2⟩
      show v.PopBack.size_ ≤ v.capacity_
      omega
    obtain ⟨w, he, hs, _, hd⟩ := Resize_cells v.PopBack n hc
    refine ⟨w, he, hs, fun i hi1 hi2 => hd i ?_ hi2⟩
    unfold GetSize at hi1 ⊢
    omega
  · intro p hp
    unfold GetSize at hp
    obtain ⟨u, he, hus, huc, hul, _, _⟩ := Erase_spec v p (by omega) hp
    have hc : u.WellFormed := ⟨by omega, by omega⟩
    obtain ⟨w, hew, hs, _, hd⟩ := Resize_cells u n hc
    refine ⟨u, w, he, hew, hs, fun i hi1 hi2 => hd i ?_ hi2⟩
    unfold GetSize at hi1 ⊢
    omega
  · intro m hm
    unfold GetSize at hm
    obtain ⟨u, he, hc, hus, _, _, _, _⟩ := Resize_spec v m hwf
    obtain ⟨w, hew, hs, _, hd⟩ := Resize_cells u n hc
    refine ⟨u, w, he, hew, hs, fun i hi1 hi2 => hd i ?_ hi2⟩
    unfold GetSize
    omega

theorem Resize_contents_witness :
    ∃ w, (⟨⟨[1, 2, 3, 9]⟩, 3, 4⟩ : SimpleVector Nat).Resize 4 = .ok w ∧ w.GetSize = 4 ∧
      (∀ i, i < min 4 (⟨⟨[1, 2, 3, 9]⟩, 3, 4⟩ : SimpleVector Nat).GetSize →
        ∃ y, (⟨⟨[1, 2, 3, 9]⟩, 3, 4⟩ : SimpleVector Nat).index i = .ok y ∧
          w.index i = .ok y) ∧
      (∀ i, (⟨⟨[1, 2, 3, 9]⟩, 3, 4⟩ : SimpleVector Nat).GetSize ≤ i → i < 4 →
        w.index i = .ok Element.value_init) :=
  (Resize_contents (⟨⟨[1, 2, 3, 9]⟩, 3, 4⟩ : SimpleVector Nat) 4 (by decide)).1

/-- C6: `Resize(n)` with `n <= size` changes nothing but the size, on any container.  On
a well-formed container `Resize(n)` returns, and with `n > capacity` it sets the capacity
to `max(n, 2 * old_capacity)`, which is `>= n`, `>= 2 * old_capacity`, and exactly `n`
when the old capacity is 0, while with `n <= capacity` it keeps the capacity. -/
theorem Resize_capacity_law [Element α] (v : SimpleVector α) (n : Nat) :
    (n ≤ v.GetSize → v.Resize n = .ok { v with size_ := n }) ∧
    (v.WellFormed →
      ∃ w, v.Resize n = .ok w ∧
        (v.GetCapacity < n →
          w.GetCapacity = max n (2 * v.GetCapacity) ∧ n ≤ w.GetCapacity ∧
          2 * v.GetCapacity ≤ w.GetCapacity ∧ (v.GetCapacity = 0 → w.GetCapacity = n)) ∧
        (n ≤ v.GetCapacity → w.GetCapacity = v.GetCapacity)) := by
  constructor
  · intro hn
    unfold GetSize at hn
    simp [Resize, hn]
  · intro h
    obtain ⟨w, he, _, _, hc, _, _, _⟩ := Resize_spec v n h
    refine ⟨w, he, ?_, ?_⟩
    · intro hlt
      unfold GetCapacity at hlt ⊢
      have hn : ¬ n ≤ v.capacity_ := by omega
      rw [if_neg hn] at hc
      rw [hc, Nat.mul_comm v.capacity_ 2]
      refine ⟨rfl, Nat.le_max_left _ _, Nat.le_max_right _ _, ?_⟩
      intro h0
      rw [h0]
      simp
    · intro hle
      unfold GetCapacity at hle ⊢
      rw [hc, if_pos hle]

theorem Resize_capacity_law_witness :
    (⟨⟨[1, 2, 3, 9]⟩, 3, 4⟩ : SimpleVector Nat).Resize 2 = .ok ⟨⟨[1, 2, 3, 9]⟩, 2, 4⟩ ∧
    ∃ w, (⟨⟨[1, 2, 3, 9]⟩, 3, 4⟩ : SimpleVector Nat).Resize 5 = .ok w ∧
      w.GetCapacity = max 5 (2 * (⟨⟨[1, 2, 3, 9]⟩, 3, 4⟩ : SimpleVector Nat).GetCapacity) ∧
      5 ≤ w.GetCapacity ∧
      2 * (⟨⟨[1, 2, 3, 9]⟩, 3, 4⟩ : SimpleVector Nat).GetCapacity ≤ w.GetCapacity ∧
      ((⟨⟨[1, 2, 3, 9]⟩, 3, 4⟩ : SimpleVector Nat).GetCapacity = 0 → w.GetCapacity = 5) := by
  refine ⟨(Resize_capacity_law (⟨⟨[1, 2, 3, 9]⟩, 3, 4⟩ : SimpleVector Nat) 2).1 (by decide),
    ?_⟩
  obtain ⟨w, he, h1, _⟩ :=
    (Resize_capacity_law (⟨⟨[1, 2, 3, 9]⟩, 3, 4⟩ : SimpleVector Nat) 5).2 (by decide)
  exact ⟨w, he, h1 (by decide)⟩

/-- C7: on a well-formed container with live sequence `s`, the by-copy
`Insert(begin() + p, x)` with `p <= size` returns the iterator at index `p`, which
dereferences to `x`; the live sequence becomes `s[0..p) ++ [x] ++ s[p..size)`, the size
grows by exactly one, and the capacity is unchanged when `size < capacity` and otherwise
1 if it was 0, else twice the old capacity. -/
theorem Insert_contract [Element α] (v : SimpleVector α) (p : Nat) (x : α)
    (h : v.WellFormed) (hp : p ≤ v.GetSize) :
    ∃ w, v.Insert p x = .ok (p, w) ∧
      w.live = v.live.take p ++ [x] ++ v.live.drop p ∧
      w.GetSize = v.GetSize + 1 ∧ w.index p = .ok x ∧
      (v.GetSize < v.GetCapacity → w.GetCapacity = v.GetCapacity) ∧
      (¬ v.GetSize < v.GetCapacity →
        w.GetCapacity = if v.GetCapacity = 0 then 1 else 2 * v.GetCapacity) := by
  unfold GetSize at hp
  obtain ⟨w, he, _, hs, hc, hlo, hx, hhi⟩ := Insert_spec v p x h hp
  obtain ⟨h1, h2⟩ := h
  refine ⟨w, he, live_insert v w p x (by omega) hp hs hlo hx hhi, hs,
    (index_eq_ok_iff _ _ _).2 hx, ?_, ?_⟩
  · intro hlt
    unfold GetSize GetCapacity at hlt
    unfold GetCapacity
    rw [hc, if_pos hlt]
  · intro hlt
    unfold GetSize GetCapacity at hlt
    unfold GetCapacity
    rw [hc, if_neg hlt, Nat.mul_comm]

theorem Insert_contract_witness :
    ∃ w, (⟨⟨[1, 2, 3]⟩, 3, 3⟩ : SimpleVector Nat).Insert 1 99 = .ok (1, w) ∧
      w.live = (⟨⟨[1, 2, 3]⟩, 3, 3⟩ : SimpleVector Nat).live.take 1 ++ [99] ++
        (⟨⟨[1, 2, 3]⟩, 3, 3⟩ : SimpleVector Nat).live.drop 1 ∧
      w.GetSize = (⟨⟨[1, 2, 3]⟩, 3, 3⟩ : SimpleVector Nat).GetSize + 1 ∧
      w.index 1 = .ok 99 ∧
      w.GetCapacity =
        if (⟨⟨[1, 2, 3]⟩, 3, 3⟩ : SimpleVector Nat).GetCapacity = 0 then 1
        else 2 * (⟨⟨[1, 2, 3]⟩, 3, 3⟩ : SimpleVector Nat).GetCapacity := by
  obtain ⟨w, he, hl, hs, hx, _, hc⟩ :=
    Insert_contract (⟨⟨[1, 2, 3]⟩, 3, 3⟩ : SimpleVector Nat) 1 99 (by decide) (by decide)
  exact ⟨w, he, hl, hs, hx, hc (by decide)⟩

/-- C8: when `p < size` (the live cells being allocated) `Erase(begin() + p)` returns,
with the iterator at index `p`; the live sequence becomes `s[0..p) ++ s[p+1..size)`, the
size drops by exactly one and the capacity is unchanged.  The returned iterator refers
to the element that followed the erased one, or is `end()` when the last element was
erased. -/
theorem Erase_contract [Element α] (v : SimpleVector α) (p : Nat)
    (hlen : v.GetSize ≤ v.items_.Get.length) (hp : p < v.GetSize) :
    ∃ w, v.Erase p = .ok (p, w) ∧
      w.live = v.live.take p ++ v.live.drop (p + 1) ∧
      w.GetSize + 1 = v.GetSize ∧ w.GetCapacity = v.GetCapacity ∧
      (p + 1 < v.GetSize → ∃ y, v.index (p + 1) = .ok y ∧ w.index p = .ok y) ∧
      (p + 1 = v.GetSize → p = w.end_) := by
  unfold GetSize at hp hlen
  unfold ArrayPtr.Get at hlen
  obtain ⟨w, he, hs, hc, hl, hlo, _⟩ := Erase_spec v p hlen hp
  refine ⟨w, he, live_erase v w p hlen hp hs hlo, ?_, hc, ?_, ?_⟩
  · unfold GetSize
    omega
  · intro hlt
    unfold GetSize at hlt
    have hlt1 : p + 1 < v.items_.raw_ptr_.length := by omega
    refine ⟨v.items_.raw_ptr_[p + 1], (index_eq_ok_iff _ _ _).2 (by simp [hlt1]), ?_⟩
    rw [index_eq_ok_iff, hlo p (by omega), if_pos (Nat.le_refl _)]
    simp [hlt1]
  · intro heq
    unfold GetSize at heq
    unfold end_
    omega

theorem Erase_contract_witness :
    ∃ w, (⟨⟨[1, 99, 2, 3]⟩, 4, 4⟩ : SimpleVector Nat).Erase 1 = .ok (1, w) ∧
      w.live = (⟨⟨[1, 99, 2, 3]⟩, 4, 4⟩ : SimpleVector Nat).live.take 1 ++
        (⟨⟨[1, 99, 2, 3]⟩, 4, 4⟩ : SimpleVector Nat).live.drop (1 + 1) ∧
      w.GetSize + 1 = (⟨⟨[1, 99, 2, 3]⟩, 4, 4⟩ : SimpleVector Nat).GetSize ∧
      w.GetCapacity = (⟨⟨[1, 99, 2, 3]⟩, 4, 4⟩ : SimpleVector Nat).GetCapacity ∧
      ∃ y, (⟨⟨[1, 99, 2, 3]⟩, 4, 4⟩ : SimpleVector Nat).index (1 + 1) = .ok y ∧
        w.index 1 = .ok y := by
  obtain ⟨w, he, hl, hs, hc, hy, _⟩ :=
    Erase_contract (⟨⟨[1, 99, 2, 3]⟩, 4, 4⟩ : SimpleVector Nat) 1 (by decide) (by decide)
  exact ⟨w, he, hl, hs, hc, hy (by decide)⟩

/-- C10: when `size <= capacity` and the live cells are allocated, `Reserve(n)` with
`n > capacity` returns with capacity exactly `n` (and a buffer of `n` allocated cells),
`Reserve(n)` with `n <= capacity` changes nothing, and in both cases the size and every
live element are unchanged. -/
theorem Reserve_contract [Element α] (v : SimpleVector α) (n : Nat)
    (hcap : v.GetSize ≤ v.GetCapacity) (hlen : v.GetSize ≤ v.items_.Get.length) :
    ∃ w, v.Reserve n = .ok w ∧
      (v.GetCapacity < n → w.GetCapacity = n ∧ w.items_.Get.length = n) ∧
      (n ≤ v.GetCapacity → w = v) ∧
      w.GetSize = v.GetSize ∧
      ∀ i, i < v.GetSize → ∃ y, v.index i = .ok y ∧ w.index i = .ok y := by
  unfold GetSize GetCapacity at hcap
  unfold GetSize ArrayPtr.Get at hlen
  obtain ⟨w, he, hs, hc, hl, hsame, hlo⟩ := Reserve_spec v n hcap hlen
  refine ⟨w, he, ?_, hsame, hs, ?_⟩
  · intro hlt
    unfold GetCapacity at hlt ⊢
    rw [hc, if_pos hlt]
    exact ⟨rfl, hl hlt⟩
  · intro i hi
    unfold GetSize at hi
    exact index_unchanged v w i (by omega) (hlo i hi)

theorem Reserve_contract_witness :
    ∃ w, (⟨⟨[1, 2, 3, 9]⟩, 3, 4⟩ : SimpleVector Nat).Reserve 6 = .ok w ∧
      (w.GetCapacity = 6 ∧ w.items_.Get.length = 6) ∧
      w.GetSize = (⟨⟨[1, 2, 3, 9]⟩, 3, 4⟩ : SimpleVector Nat).GetSize ∧
      ∀ i, i < (⟨⟨[1, 2, 3, 9]⟩, 3, 4⟩ : SimpleVector Nat).GetSize →
        ∃ y, (⟨⟨[1, 2, 3, 9]⟩, 3, 4⟩ : SimpleVector Nat).index i = .ok y ∧
          w.index i = .ok y := by
  obtain ⟨w, he, hc, _, hs, hi⟩ :=
    Reserve_contract (⟨⟨[1, 2, 3, 9]⟩, 3, 4⟩ : SimpleVector Nat) 6 (by decide) (by decide)
  exact ⟨w, he, hc (by decide), hs, hi⟩

/-- `std::equal` answers `true` when the two ranges hold pairwise `==` elements. -/
theorem equal_loop_true [BEq α] (a b : List α) (last : Nat) :
    ∀ (fuel first : Nat), first ≤ last → last - first < fuel →
      (∀ i, first ≤ i → i < last →
        ∃ x y, a[i]? = some x ∧ b[i]? = some y ∧ (x == y) = true) →
      equal_loop a b fuel first last first = .ok true := by
  intro fuel
  induction fuel with
  | zero => intro first _ h; omega
  | succ n ih =>
    intro first h1 h2 hall
    by_cases hfl : first = last
    · subst hfl
      simp [equal_loop]
    · obtain ⟨x, y, hx, hy, hxy⟩ := hall first (Nat.le_refl _) (by omega)
      rw [equal_loop, if_pos hfl, load_eq_ok hx, load_eq_ok hy]
      simp only [hxy, Bool.not_true, Bool.false_eq_true, if_false]
      exact ih (first + 1) (by omega) (by omega)
        (fun i hi1 hi2 => hall i (by omega) hi2)

/-- Two distinct containers of the same size whose live cells agree compare equal. -/
theorem eq_of_cells [BEq α] [LawfulBEq α] (u v : SimpleVector α)
    (hs : u.size_ = v.size_) (hu : u.size_ ≤ u.items_.raw_ptr_.length)
    (hv : v.size_ ≤ v.items_.raw_ptr_.length)
    (hc : ∀ j, j < v.size_ → u.items_.raw_ptr_[j]? = v.items_.raw_ptr_[j]?) :
    u.eq v false = .ok true := by
  have hne : ¬ u.GetSize ≠ v.GetSize := by simp [GetSize, hs]
  simp only [eq, Bool.false_eq_true, if_false, if_neg hne, std_equal, begin, end_,
    ArrayPtr.Get, Nat.zero_add]
  apply equal_loop_true _ _ _ _ _ (Nat.zero_le _) (by omega)
  intro i _ hi
  have hiv : i < v.items_.raw_ptr_.length := by omega
  refine ⟨v.items_.raw_ptr_[i], v.items_.raw_ptr_[i], ?_, by simp [hiv], by simp⟩
  rw [hc i (by omega)]
  simp [hiv]

/-- `Erase` at `p` undoes an insertion at `p`: if `w` holds the cells of `v` with one
more cell put in at `p`, erasing at `p` gives back a container equal to `v`. -/
theorem Erase_undoes_insertion [Element α] [BEq α] [LawfulBEq α] (v w : SimpleVector α)
    (p : Nat) (hlen : v.size_ ≤ v.items_.raw_ptr_.length) (hp : p ≤ v.size_)
    (hwl : w.size_ ≤ w.items_.raw_ptr_.length) (hs : w.size_ = v.size_ + 1)
    (hlo : ∀ j, j < p → w.items_.raw_ptr_[j]? = v.items_.raw_ptr_[j]?)
    (hhi : ∀ j, p < j → j ≤ v.size_ → w.items_.raw_ptr_[j]? = v.items_.raw_ptr_[j - 1]?) :
    ∃ u, w.Erase p = .ok (p, u) ∧ u.live = v.live ∧ u.size_ = v.size_ ∧
      u.eq v false = .ok true := by
  obtain ⟨u, heu, hus, _, hul, hulo, _⟩ := Erase_spec w p hwl (by omega)
  have hcells : ∀ j, j < v.size_ → u.items_.raw_ptr_[j]? = v.items_.raw_ptr_[j]? := by
    intro j hj
    rw [hulo j (by omega)]
    by_cases c : p ≤ j
    · rw [if_pos c, hhi (j + 1) (by omega) (by omega)]
      simp
    · rw [if_neg c, hlo j (by omega)]
  have hsz : u.size_ = v.size_ := by omega
  refine ⟨u, heu, ?_, hsz, eq_of_cells u v hsz (by omega) hlen hcells⟩
  apply List.ext_getElem?
  intro j
  rw [live_getElem?, live_getElem?, hsz]
  by_cases c : j < v.size_
  · rw [if_pos c, if_pos c, hcells j c]
  · rw [if_neg c, if_neg c]

/-- The by-copy `Insert` followed by `Erase` on the returned iterator gives back a
container equal to the original one. -/
theorem Insert_then_Erase [Element α] [BEq α] [LawfulBEq α] (v : SimpleVector α) (p : Nat)
    (x : α) (h : v.WellFormed) (hp : p ≤ v.size_) :
    ∃ w u, v.Insert p x = .ok (p, w) ∧ w.Erase p = .ok (p, u) ∧ u.live = v.live ∧
      u.size_ = v.size_ ∧ u.eq v false = .ok true := by
  obtain ⟨w, he, hw, hs, _, hlo, _, hhi⟩ := Insert_spec v p x h hp
  obtain ⟨h1, h2⟩ := h
  obtain ⟨w1, w2⟩ := hw
  obtain ⟨u, hu⟩ := Erase_undoes_insertion v w p (by omega) hp (by omega) hs hlo hhi
  exact ⟨w, u, he, hu⟩

/-- C9 (the code at the failing input): with `{a, b, c}` in a buffer of capacity 4, the
by-move `Insert(begin(), x)` runs in place; its `std::move(pos, end(), pos + 1)` walks
forward and overwrites `b` and `c` before they are moved, so the following `Erase` on
the returned iterator leaves three elements derived from `a`.  For the strings
`{"a", "b", "c"}` and for the integers `{1, 2, 3}` the result does not compare equal to
the original, well-formed container. -/
theorem Insert_move_then_Erase_not_inverse :
    (∀ (β : Type) [Element β] (a b c d x : β),
      (⟨⟨[a, b, c, d]⟩, 3, 4⟩ : SimpleVector β).Insert_move 0 x
        = .ok (0, ⟨⟨[x, Element.moved_from a, Element.moved_from a, a]⟩, 4, 4⟩) ∧
      (⟨⟨[x, Element.moved_from a, Element.moved_from a, a]⟩, 4, 4⟩ : SimpleVector β).Erase 0
        = .ok (0, ⟨⟨[Element.moved_from a, Element.moved_from a, a,
            Element.moved_from a]⟩, 3, 4⟩)) ∧
    ((⟨⟨["a", "b", "c", ""]⟩, 3, 4⟩ : SimpleVector String).WellFormed ∧
      (⟨⟨["a", "b", "c", ""]⟩, 3, 4⟩ : SimpleVector String).Insert_move 0 "x"
        = .ok (0, ⟨⟨["x", "", "", "a"]⟩, 4, 4⟩) ∧
      (⟨⟨["x", "", "", "a"]⟩, 4, 4⟩ : SimpleVector String).Erase 0
        = .ok (0, ⟨⟨["", "", "a", ""]⟩, 3, 4⟩) ∧
      (⟨⟨["", "", "a", ""]⟩, 3, 4⟩ : SimpleVector String).eq
        ⟨⟨["a", "b", "c", ""]⟩, 3, 4⟩ false = .ok false) ∧
    ((⟨⟨[1, 2, 3, 0]⟩, 3, 4⟩ : SimpleVector Nat).WellFormed ∧
      (⟨⟨[1, 2, 3, 0]⟩, 3, 4⟩ : SimpleVector Nat).Insert_move 0 99
        = .ok (0, ⟨⟨[99, 1, 1, 1]⟩, 4, 4⟩) ∧
      (⟨⟨[99, 1, 1, 1]⟩, 4, 4⟩ : SimpleVector Nat).Erase 0
        = .ok (0, ⟨⟨[1, 1, 1, 1]⟩, 3, 4⟩) ∧
      (⟨⟨[1, 1, 1, 1]⟩, 3, 4⟩ : SimpleVector Nat).eq ⟨⟨[1, 2, 3, 0]⟩, 3, 4⟩ false
        = .ok false) := by
  refine ⟨?_, ⟨by decide, rfl, rfl, rfl⟩, ⟨by decide, rfl, rfl, rfl⟩⟩
  intro β _ a b c d x
  exact ⟨rfl, rfl⟩

/-- Size and capacity after any run of `PushBack` that returns. -/
theorem PushBack_size_capacity [Element α] (v w : SimpleVector α) (x : α)
    (h : v.PushBack x = .ok w) :
    w.size_ = v.size_ + 1 ∧
      w.capacity_ = (if v.size_ < v.capacity_ then v.capacity_
        else if v.capacity_ = 0 then 1 else v.capacity_ * 2) := by
  unfold PushBack at h
  by_cases hlt : v.size_ < v.capacity_
  · rw [if_pos hlt] at h
    rw [if_pos hlt]
    cases h1 : v.items_.assign v.size_ x with
    | ok items => rw [h1] at h; cases h; exact ⟨rfl, rfl⟩
    | error e => rw [h1] at h; cases h
  · rw [if_neg hlt] at h
    rw [if_neg hlt]
    simp only [] at h
    cases h1 : std_copy v.items_.Get v.begin v.end_
        (ArrayPtr.alloc (if v.capacity_ = 0 then 1 else v.capacity_ * 2) : ArrayPtr α).Get 0 with
    | ok buf =>
      rw [h1] at h
      simp only [] at h
      cases h2 : (ArrayPtr.mk buf).assign v.size_ x with
      | ok tmp1 => rw [h2] at h; cases h; exact ⟨rfl, rfl⟩
      | error e => rw [h2] at h; cases h
    | error e => rw [h1] at h; cases h

/-- Size and capacity after any run of `PushBack(Type&&)` that returns. -/
theorem PushBack_move_size_capacity [Element α] (v w : SimpleVector α) (x : α)
    (h : v.PushBack_move x = .ok w) :
    w.size_ = v.size_ + 1 ∧
      w.capacity_ = (if v.size_ < v.capacity_ then v.capacity_
        else if v.capacity_ = 0 then 1 else v.capacity_ * 2) := by
  unfold PushBack_move at h
  by_cases hlt : v.size_ < v.capacity_
  · rw [if_pos hlt] at h
    rw [if_pos hlt]
    split at h
    · cases h; exact ⟨rfl, rfl⟩
    · cases h
  · rw [if_neg hlt] at h
    rw [if_neg hlt]
    simp only [] at h
    split at h
    · split at h
      · cases h; exact ⟨rfl, rfl⟩
      · cases h
    · cases h

/-- Size and capacity after any run of `Resize` that returns. -/
theorem Resize_size_capacity [Element α] (v w : SimpleVector α) (n : Nat)
    (h : v.Resize n = .ok w) :
    w.size_ = n ∧
      w.capacity_ = (if n ≤ v.size_ then v.capacity_ else if n ≤ v.capacity_ then v.capacity_
        else max n (v.capacity_ * 2)) := by
  unfold Resize at h
  by_cases h1 : n ≤ v.size_
  · rw [if_pos h1] at h
    rw [if_pos h1]
    cases h
    exact ⟨rfl, rfl⟩
  · rw [if_neg h1] at h
    rw [if_neg h1]
    by_cases h2 : n ≤ v.capacity_
    · rw [if_pos h2] at h
      rw [if_pos h2]
      split at h
      · cases h; exact ⟨rfl, rfl⟩
      · cases h
    · rw [if_neg h2] at h
      rw [if_neg h2]
      simp only [] at h
      split at h
      · split at h
        · cases h; exact ⟨rfl, rfl⟩
        · cases h
      · cases h

/-- Size and capacity after any run of the by-copy `Insert` that returns. -/
theorem Insert_size_capacity [Element α] (v : SimpleVector α) (p : Nat) (x : α)
    (r : Nat × SimpleVector α) (h : v.Insert p x = .ok r) :
    r.2.size_ = v.size_ + 1 ∧
      r.2.capacity_ = (if v.size_ < v.capacity_ then v.capacity_
        else if v.capacity_ = 0 then 1 else v.capacity_ * 2) := by
  unfold Insert at h
  simp only [] at h
  by_cases hlt : v.size_ < v.capacity_
  · rw [if_pos hlt] at h
    rw [if_pos hlt]
    split at h
    · split at h
      · cases h; exact ⟨rfl, rfl⟩
      · cases h
    · cases h
  · rw [if_neg hlt] at h
    rw [if_neg hlt]
    split at h
    · split at h
      · split at h
        · cases h; exact ⟨rfl, rfl⟩
        · cases h
      · cases h
    · cases h

/-- Size and capacity after any run of the by-move `Insert` that returns. -/
theorem Insert_move_size_capacity [Element α] (v : SimpleVector α) (p : Nat) (x : α)
    (r : Nat × SimpleVector α) (h : v.Insert_move p x = .ok r) :
    r.2.size_ = v.size_ + 1 ∧
      r.2.capacity_ = (if v.size_ < v.capacity_ then v.capacity_
        else if v.capacity_ = 0 then 1 else v.capacity_ * 2) := by
  unfold Insert_move at h
  simp only [] at h
  by_cases hlt : v.size_ < v.capacity_
  · rw [if_pos hlt] at h
    rw [if_pos hlt]
    split at h
    · split at h
      · cases h; exact ⟨rfl, rfl⟩
      · cases h
    · cases h
  · rw [if_neg hlt] at h
    rw [if_neg hlt]
    split at h
    · split at h
      · split at h
        · cases h; exact ⟨rfl, rfl⟩
        · cases h
      · cases h
    · cases h

/-- Size and capacity after any run of `Erase` that returns. -/
theorem Erase_size_capacity [Element α] (v : SimpleVector α) (p : Nat)
    (r : Nat × SimpleVector α) (h : v.Erase p = .ok r) :
    r.2.size_ = (if v.size_ = 0 then SIZE_MAX else v.size_ - 1) ∧
      r.2.capacity_ = v.capacity_ := by
  unfold Erase at h
  simp only [] at h
  split at h
  · cases h; exact ⟨rfl, rfl⟩
  · cases h

/-- Size and capacity after any run of `Reserve` that returns. -/
theorem Reserve_size_capacity [Element α] (v w : SimpleVector α) (n : Nat)
    (h : v.Reserve n = .ok w) :
    w.size_ = v.size_ ∧ w.capacity_ = (if v.capacity_ < n then n else v.capacity_) := by
  unfold Reserve at h
  by_cases hlt : v.capacity_ < n
  · rw [if_pos hlt] at h
    rw [if_pos hlt]
    simp only [] at h
    split at h
    · cases h; exact ⟨rfl, rfl⟩
    · cases h
  · rw [if_neg hlt] at h
    rw [if_neg hlt]
    cases h
    exact ⟨rfl, rfl⟩

/-- Size and capacity after any run of `Copy` that returns. -/
theorem Copy_size_capacity [Element α] (self other w : SimpleVector α)
    (h : self.Copy other = .ok w) :
    w.size_ = other.size_ ∧ w.capacity_ = other.capacity_ := by
  unfold Copy at h
  split at h
  · split at h
    · cases h; exact ⟨rfl, rfl⟩
    · cases h
  · cases h

/-- The constructor `SimpleVector(size)`. -/
theorem with_size_spec [Element α] (n : Nat) :
    ∃ w : SimpleVector α, with_size n = .ok w ∧ w.size_ = n ∧ w.capacity_ = n ∧
      w.items_.raw_ptr_.length = n ∧
      ∀ j, j < n → w.items_.raw_ptr_[j]? = some Element.value_init := by
  obtain ⟨buf, he, hl, hj⟩ := std_fill_spec (ArrayPtr.alloc n : ArrayPtr α).raw_ptr_ 0 n
    Element.value_init (Nat.zero_le _) (by rw [alloc_length])
  rw [alloc_length] at hl
  refine ⟨⟨⟨buf⟩, n, n⟩, ?_, rfl, rfl, hl, ?_⟩
  · simp [with_size, begin, end_, ArrayPtr.Get, he]
  · intro j hjn
    show buf[j]? = _
    rw [hj j, if_pos ⟨Nat.zero_le _, hjn⟩]

/-- The constructor `SimpleVector(size, value)`. -/
theorem with_value_spec [Element α] (n : Nat) (x : α) :
    ∃ w : SimpleVector α, with_value n x = .ok w ∧ w.size_ = n ∧ w.capacity_ = n ∧
      w.items_.raw_ptr_.length = n ∧
      ∀ j, j < n → w.items_.raw_ptr_[j]? = some x := by
  obtain ⟨buf, he, hl, hj⟩ := std_fill_spec (ArrayPtr.alloc n : ArrayPtr α).raw_ptr_ 0 n
    x (Nat.zero_le _) (by rw [alloc_length])
  rw [alloc_length] at hl
  refine ⟨⟨⟨buf⟩, n, n⟩, ?_, rfl, rfl, hl, ?_⟩
  · simp [with_value, begin, end_, ArrayPtr.Get, he]
  · intro j hjn
    show buf[j]? = _
    rw [hj j, if_pos ⟨Nat.zero_le _, hjn⟩]

/-- The constructor from an initializer list. -/
theorem of_init_spec [Element α] (init : List α) :
    ∃ w : SimpleVector α, of_init init = .ok w ∧ w.size_ = init.length ∧
      w.capacity_ = init.length ∧ w.items_.raw_ptr_.length = init.length ∧
      ∀ j, j < init.length → w.items_.raw_ptr_[j]? = init[j]? := by
  obtain ⟨buf, he, hl, hj⟩ := std_copy_spec init 0 init.length
    (ArrayPtr.alloc init.length : ArrayPtr α).raw_ptr_ 0 (Nat.zero_le _) (Nat.le_refl _)
    (by rw [alloc_length]; omega)
  rw [alloc_length] at hl
  refine ⟨⟨⟨buf⟩, init.length, init.length⟩, ?_, rfl, rfl, hl, ?_⟩
  · simp [of_init, begin, ArrayPtr.Get, he]
  · intro j hjn
    have c : 0 ≤ j ∧ j < 0 + (init.length - 0) := by omega
    show buf[j]? = _
    rw [hj j, if_pos c]
    simp

/-- What `Copy(other)` leaves in `*this` when the live cells of `other` are allocated:
the size and the capacity of `other`, in a buffer of `other.size_` cells. -/
theorem Copy_spec [Element α] (self other : SimpleVector α)
    (hlen : other.size_ ≤ other.items_.raw_ptr_.length) :
    ∃ w, self.Copy other = .ok w ∧ w.size_ = other.size_ ∧
      w.capacity_ = other.capacity_ ∧ w.items_.raw_ptr_.length = other.size_ ∧
      ∀ j, j < other.size_ → w.items_.raw_ptr_[j]? = other.items_.raw_ptr_[j]? := by
  obtain ⟨tmp, ht, _, _, htl, _⟩ := with_size_spec (α := α) other.size_
  obtain ⟨dst, he, hl, hj⟩ := copy_loop_spec other.items_.raw_ptr_ other.size_
    (other.items_.raw_ptr_.length + 1) 0 tmp.items_.raw_ptr_ 0 (Nat.zero_le _) hlen
    (by omega) (by omega)
  refine ⟨⟨⟨dst⟩, other.size_, other.capacity_⟩, ?_, rfl, rfl, by
    show dst.length = _
    omega, ?_⟩
  · simp [Copy, ht, begin, end_, ArrayPtr.Get, he, swap, ArrayPtr.swap]
  · intro j hjn
    have c : 0 ≤ j ∧ j < 0 + (other.size_ - 0) := by omega
    show dst[j]? = _
    rw [hj j, if_pos c]
    simp

/-- Forward `std::move` of `buf[first, last)` one cell to the right inside the same
array: the value of the first cell is carried along to cell `last`, and the cells of
`[first, last)` are left moved-from. -/
theorem move_within_loop_spec [Element α] (last : Nat) :
    ∀ (fuel first : Nat) (buf : List α), first ≤ last → last < buf.length →
      last - first < fuel →
      ∃ buf1, while_ne move_within_step fuel first last (buf, first + 1)
          = .ok (buf1, last + 1) ∧
        buf1.length = buf.length ∧
        ∀ j, buf1[j]? =
          if first ≤ j ∧ j < last then (buf[first]?).map Element.moved_from
          else if j = last then buf[first]? else buf[j]? := by
  intro fuel
  induction fuel with
  | zero => intro first buf _ _ h; omega
  | succ n ih =>
    intro first buf h1 h2 h3
    by_cases hfl : first = last
    · subst hfl
      refine ⟨buf, by simp [while_ne], rfl, ?_⟩
      intro j
      have c : ¬ (first ≤ j ∧ j < first) := by omega
      rw [if_neg c]
      by_cases c2 : j = first
      · rw [if_pos c2, c2]
      · rw [if_neg c2]
    · have hf : first < buf.length := by omega
      have hf1 : first + 1 < buf.length := by omega
      obtain ⟨buf1, he, hl, hj⟩ :=
        ih (first + 1)
          ((buf.set (first + 1) (buf[first])).set first (Element.moved_from (buf[first])))
          (by omega) (by simp only [List.length_set]; omega) (by omega)
      refine ⟨buf1, ?_, by simpa using hl, ?_⟩
      · rw [while_ne, if_pos hfl]
        have hstep : move_within_step first (buf, first + 1)
            = .ok ((buf.set (first + 1) (buf[first])).set first
                (Element.moved_from (buf[first])), first + 1 + 1) := by
          simp [move_within_step, load_of_lt hf, store_eq_ok _ hf1, store_eq_ok, hf]
        rw [hstep]
        exact he
      · intro j
        have hx : ((buf.set (first + 1) (buf[first])).set first
            (Element.moved_from (buf[first])))[first + 1]? = some (buf[first]) := by
          simp [hf1]
        rw [hj j, hx]
        by_cases c1 : first + 1 ≤ j ∧ j < last
        · have c2 : first ≤ j ∧ j < last := by omega
          rw [if_pos c1, if_pos c2]
          simp [hf]
        · rw [if_neg c1]
          by_cases c3 : j = last
          · have c2 : ¬ (first ≤ j ∧ j < last) := by omega
            rw [if_pos c3, if_neg c2, if_pos c3]
            simp [hf]
          · rw [if_neg c3]
            by_cases c4 : j = first
            · subst c4
              have c2 : j ≤ j ∧ j < last := by omega
              rw [if_pos c2]
              simp [hf]
            · have c2 : ¬ (first ≤ j ∧ j < last) := by omega
              have c5 : first ≠ j := by omega
              have c6 : first + 1 ≠ j := by omega
              rw [if_neg c2, if_neg c3]
              simp [c5, c6]

theorem std_move_within_spec [Element α] (buf : List α) (first last : Nat)
    (h1 : first ≤ last) (h2 : last < buf.length) :
    ∃ buf1, std_move_within buf first last (first + 1) = .ok buf1 ∧
      buf1.length = buf.length ∧
      ∀ j, buf1[j]? =
        if first ≤ j ∧ j < last then (buf[first]?).map Element.moved_from
        else if j = last then buf[first]? else buf[j]? := by
  obtain ⟨buf1, he, hl, hj⟩ :=
    move_within_loop_spec last (buf.length + 1) first buf h1 h2 (by omega)
  exact ⟨buf1, by simp [std_move_within, he], hl, hj⟩

/-- What the by-move `Insert` does to a well-formed container at a position
`p <= size`, cell by cell: the reallocating branch places every element, the in-place
branch carries the element at `p` to the end and leaves moved-from cells in between. -/
theorem Insert_move_spec [Element α] (v : SimpleVector α) (p : Nat) (x : α)
    (h : v.WellFormed) (hp : p ≤ v.size_) :
    ∃ w, v.Insert_move p x = .ok (p, w) ∧ w.WellFormed ∧ w.size_ = v.size_ + 1 ∧
      w.capacity_ = (if v.size_ < v.capacity_ then v.capacity_
        else if v.capacity_ = 0 then 1 else v.capacity_ * 2) ∧
      (∀ j, j < p → w.items_.raw_ptr_[j]? = v.items_.raw_ptr_[j]?) ∧
      w.items_.raw_ptr_[p]? = some x ∧
      (v.size_ < v.capacity_ →
        (∀ j, p < j → j < v.size_ →
          w.items_.raw_ptr_[j]? = (v.items_.raw_ptr_[p]?).map Element.moved_from) ∧
        (p < v.size_ → w.items_.raw_ptr_[v.size_]? = v.items_.raw_ptr_[p]?)) ∧
      (¬ v.size_ < v.capacity_ →
        ∀ j, p < j → j ≤ v.size_ → w.items_.raw_ptr_[j]? = v.items_.raw_ptr_[j - 1]?) := by
  obtain ⟨h1, h2⟩ := h
  by_cases hlt : v.size_ < v.capacity_
  · obtain ⟨buf, he, hl, hj⟩ :=
      std_move_within_spec v.items_.raw_ptr_ p v.size_ hp (by omega)
    have hpl : p < buf.length := by omega
    refine ⟨{ v with items_ := ⟨buf.set p x⟩, size_ := v.size_ + 1 }, ?_, ⟨?_, ?_⟩, rfl,
      by simp [hlt], ?_, ?_, fun _ => ⟨?_, ?_⟩, fun hh => absurd hlt hh⟩
    · simp [Insert_move, hlt, begin, end_, ArrayPtr.Get, he, store_eq_ok x hpl]
    · show v.size_ + 1 ≤ v.capacity_
      omega
    · show v.capacity_ = (buf.set p x).length
      simp only [List.length_set]
      omega
    · intro j hjp
      have c1 : p ≠ j := by omega
      have c2 : ¬ (p ≤ j ∧ j < v.size_) := by omega
      have c3 : ¬ j = v.size_ := by omega
      show (buf.set p x)[j]? = _
      rw [List.getElem?_set_ne c1, hj j, if_neg c2, if_neg c3]
    · show (buf.set p x)[p]? = _
      simp [hpl]
    · intro j hj1 hj2
      have c1 : p ≠ j := by omega
      have c2 : p ≤ j ∧ j < v.size_ := by omega
      show (buf.set p x)[j]? = _
      rw [List.getElem?_set_ne c1, hj j, if_pos c2]
    · intro hps
      have c1 : p ≠ v.size_ := by omega
      have c2 : ¬ (p ≤ v.size_ ∧ v.size_ < v.size_) := by omega
      show (buf.set p x)[v.size_]? = _
      rw [List.getElem?_set_ne c1, hj v.size_, if_neg c2, if_pos rfl]
  · have hsz : v.size_ = v.capacity_ := by omega
    have hnc : v.size_ + 1 ≤ (if v.capacity_ = 0 then 1 else v.capacity_ * 2) := by
      split <;> omega
    obtain ⟨old, buf, he, hlo, hl, hj, hjo⟩ := std_move_spec v.items_.raw_ptr_ 0 p
      (ArrayPtr.alloc (if v.capacity_ = 0 then 1 else v.capacity_ * 2) : ArrayPtr α).raw_ptr_ 0
      (Nat.zero_le _) (by omega) (by rw [alloc_length]; omega)
    rw [alloc_length] at hl
    have hpl : p < buf.length := by omega
    obtain ⟨old1, buf2, he2, _, hl2, hj2, _⟩ := std_move_spec old p v.size_
      (buf.set p x) (p + 1) hp (by omega) (by simp only [List.length_set]; omega)
    simp only [List.length_set] at hl2
    refine ⟨⟨⟨buf2⟩, v.size_ + 1, if v.capacity_ = 0 then 1 else v.capacity_ * 2⟩,
      ?_, ⟨hnc, ?_⟩, rfl, by simp [hlt], ?_, ?_, fun hh => absurd hh hlt, fun _ => ?_⟩
    · simp [Insert_move, hlt, begin, end_, ArrayPtr.Get, ArrayPtr.swap, he,
        store_eq_ok x hpl, he2]
    · show (if v.capacity_ = 0 then 1 else v.capacity_ * 2) = buf2.length
      omega
    · intro j hjp
      have c1 : ¬ (p + 1 ≤ j ∧ j < p + 1 + (v.size_ - p)) := by omega
      have c2 : p ≠ j := by omega
      have c3 : 0 ≤ j ∧ j < 0 + (p - 0) := by omega
      show buf2[j]? = _
      rw [hj2 j, if_neg c1, List.getElem?_set_ne c2, hj j, if_pos c3]
      simp
    · have c1 : ¬ (p + 1 ≤ p ∧ p < p + 1 + (v.size_ - p)) := by omega
      show buf2[p]? = _
      rw [hj2 p, if_neg c1]
      simp [hpl]
    · intro j hj1 hjs
      have c1 : p + 1 ≤ j ∧ j < p + 1 + (v.size_ - p) := by omega
      have c2 : p + (j - (p + 1)) = j - 1 := by omega
      have c3 : ¬ (0 ≤ j - 1 ∧ j - 1 < p) := by omega
      show buf2[j]? = _
      rw [hj2 j, if_pos c1, c2, hjo (j - 1), if_neg c3]

/-- The by-move `Insert` followed by `Erase` on the returned iterator gives back a
container equal to the original one when the insertion reallocates, or when at most one
element lies after the position. -/
theorem Insert_move_then_Erase [Element α] [BEq α] [LawfulBEq α] (v : SimpleVector α)
    (p : Nat) (x : α) (h : v.WellFormed) (hp : p ≤ v.size_)
    (hok : ¬ v.size_ < v.capacity_ ∨ v.size_ ≤ p + 1) :
    ∃ w u, v.Insert_move p x = .ok (p, w) ∧ w.Erase p = .ok (p, u) ∧ u.live = v.live ∧
      u.size_ = v.size_ ∧ u.eq v false = .ok true := by
  obtain ⟨w, he, hw, hs, _, hlo, _, hin, hre⟩ := Insert_move_spec v p x h hp
  obtain ⟨h1, h2⟩ := h
  obtain ⟨w1, w2⟩ := hw
  have hhi : ∀ j, p < j → j ≤ v.size_ →
      w.items_.raw_ptr_[j]? = v.items_.raw_ptr_[j - 1]? := by
    intro j hj1 hj2
    by_cases hlt : v.size_ < v.capacity_
    · have hsp : v.size_ ≤ p + 1 := by
        rcases hok with hc | hc
        · exact absurd hlt hc
        · exact hc
      have hj : j = v.size_ := by omega
      have hpm : v.size_ - 1 = p := by omega
      rw [hj, (hin hlt).2 (by omega), hpm]
    · exact hre hlt j hj1 hj2
  obtain ⟨u, hu⟩ := Erase_undoes_insertion v w p (by omega) hp (by omega) hs hlo hhi
  exact ⟨w, u, he, hu⟩

/-- C4: every constructor establishes `size <= capacity`; every mutating operation
called within its precondition on a container with `size <= capacity` (`Clear`,
`Resize(n)`, both `PushBack`, both `Insert` at `p <= size`, `PopBack` on a non-empty
container, `Erase` at `p < size`, `Reserve(n)`, `swap`, copy assignment, move
assignment) leaves `size <= capacity` whenever it returns; and on a well-formed
container each of them does return (`size_t` overflow ignored). -/
theorem size_le_capacity_invariant [Element α] (v other : SimpleVector α) (n p : Nat)
    (x : α) (init : List α) (obj : ReserveProxyObj) (distinct : Bool) :
    ((empty : SimpleVector α).GetSize ≤ (empty : SimpleVector α).GetCapacity ∧
      (∃ w : SimpleVector α, with_size n = .ok w ∧ w.GetSize ≤ w.GetCapacity) ∧
      (∃ w, with_value n x = .ok w ∧ w.GetSize ≤ w.GetCapacity) ∧
      (∃ w, of_init init = .ok w ∧ w.GetSize ≤ w.GetCapacity) ∧
      (∃ w : SimpleVector α, of_reserve obj = .ok w ∧ w.GetSize ≤ w.GetCapacity) ∧
      (other.GetSize ≤ other.GetCapacity → other.GetSize ≤ other.items_.Get.length →
        ∃ w, copy_ctor other = .ok w ∧ w.GetSize ≤ w.GetCapacity) ∧
      (other.GetSize ≤ other.GetCapacity →
        (move_ctor other).1.GetSize ≤ (move_ctor other).1.GetCapacity ∧
        (move_ctor other).2.GetSize ≤ (move_ctor other).2.GetCapacity)) ∧
    (v.GetSize ≤ v.GetCapacity →
      v.Clear.GetSize ≤ v.Clear.GetCapacity ∧
      (∀ w, v.Resize n = .ok w → w.GetSize ≤ w.GetCapacity) ∧
      (∀ w, v.PushBack x = .ok w → w.GetSize ≤ w.GetCapacity) ∧
      (∀ w, v.PushBack_move x = .ok w → w.GetSize ≤ w.GetCapacity) ∧
      (p ≤ v.GetSize → ∀ r, v.Insert p x = .ok r → r.2.GetSize ≤ r.2.GetCapacity) ∧
      (p ≤ v.GetSize → ∀ r, v.Insert_move p x = .ok r → r.2.GetSize ≤ r.2.GetCapacity) ∧
      (v.GetSize ≠ 0 → v.PopBack.GetSize ≤ v.PopBack.GetCapacity) ∧
      (p < v.GetSize → ∀ r, v.Erase p = .ok r → r.2.GetSize ≤ r.2.GetCapacity) ∧
      (∀ w, v.Reserve n = .ok w → w.GetSize ≤ w.GetCapacity) ∧
      (other.GetSize ≤ other.GetCapacity →
        (v.swap other).1.GetSize ≤ (v.swap other).1.GetCapacity ∧
        (v.swap other).2.GetSize ≤ (v.swap other).2.GetCapacity) ∧
      (other.GetSize ≤ other.GetCapacity →
        ∀ w, v.assign_copy other distinct = .ok w → w.GetSize ≤ w.GetCapacity) ∧
      (other.GetSize ≤ other.GetCapacity →
        (v.assign_move other distinct).1.GetSize ≤ (v.assign_move other distinct).1.GetCapacity ∧
        (v.assign_move other distinct).2.GetSize
          ≤ (v.assign_move other distinct).2.GetCapacity)) ∧
    (v.WellFormed →
      (∃ w, v.Resize n = .ok w) ∧ (∃ w, v.PushBack x = .ok w) ∧
      (∃ w, v.PushBack_move x = .ok w) ∧
      (p ≤ v.GetSize → ∃ w, v.Insert p x = .ok (p, w)) ∧
      (p ≤ v.GetSize → ∃ w, v.Insert_move p x = .ok (p, w)) ∧
      (p < v.GetSize → ∃ w, v.Erase p = .ok (p, w)) ∧
      (∃ w, v.Reserve n = .ok w) ∧
      (other.GetSize ≤ other.items_.Get.length →
        ∃ w, v.assign_copy other distinct = .ok w)) := by
  unfold GetSize GetCapacity ArrayPtr.Get
  refine ⟨⟨?_, ?_, ?_, ?_, ?_, ?_, ?_⟩, ?_, ?_⟩
  · exact Nat.le_refl _
  · obtain ⟨w, he, hs, hc, _, _⟩ := with_size_spec (α := α) n
    exact ⟨w, he, by omega⟩
  · obtain ⟨w, he, hs, hc, _, _⟩ := with_value_spec n x
    exact ⟨w, he, by omega⟩
  · obtain ⟨w, he, hs, hc, _, _⟩ := of_init_spec init
    exact ⟨w, he, by omega⟩
  · obtain ⟨w, he, hs, hc, _, _, _⟩ := Reserve_spec (empty : SimpleVector α)
      obj.GetCapacity (Nat.le_refl _) (Nat.zero_le _)
    refine ⟨w, he, ?_⟩
    rw [hs]
    exact Nat.zero_le _
  · intro ho hol
    obtain ⟨w, he, hs, hc, _, _⟩ := Copy_spec (empty : SimpleVector α) other hol
    exact ⟨w, he, by omega⟩
  · intro ho
    exact ⟨ho, Nat.le_refl _⟩
  · intro hv
    refine ⟨Nat.zero_le _, ?_, ?_, ?_, ?_, ?_, ?_, ?_, ?_, ?_, ?_, ?_⟩
    · intro w hw
      obtain ⟨hs, hc⟩ := Resize_size_capacity v w n hw
      rw [hs, hc]
      split
      · omega
      · split
        · assumption
        · exact Nat.le_max_left _ _
    · intro w hw
      obtain ⟨hs, hc⟩ := PushBack_size_capacity v w x hw
      rw [hs, hc]
      split
      · omega
      · split <;> omega
    · intro w hw
      obtain ⟨hs, hc⟩ := PushBack_move_size_capacity v w x hw
      rw [hs, hc]
      split
      · omega
      · split <;> omega
    · intro _ r hr
      obtain ⟨hs, hc⟩ := Insert_size_capacity v p x r hr
      rw [hs, hc]
      split
      · omega
      · split <;> omega
    · intro _ r hr
      obtain ⟨hs, hc⟩ := Insert_move_size_capacity v p x r hr
      rw [hs, hc]
      split
      · omega
      · split <;> omega
    · intro hne
      show (if v.size_ = 0 then SIZE_MAX else v.size_ - 1) ≤ v.capacity_
      rw [if_neg hne]
      omega
    · intro hp r hr
      obtain ⟨hs, hc⟩ := Erase_size_capacity v p r hr
      have hne : ¬ v.size_ = 0 := by omega
      rw [hs, hc, if_neg hne]
      omega
    · intro w hw
      obtain ⟨hs, hc⟩ := Reserve_size_capacity v w n hw
      rw [hs, hc]
      split <;> omega
    · intro ho
      exact ⟨ho, hv⟩
    · intro ho w hw
      unfold assign_copy at hw
      cases distinct with
      | true =>
        obtain ⟨hs, hc⟩ := Copy_size_capacity v other w hw
        omega
      | false =>
        cases hw
        exact hv
    · intro ho
      cases distinct with
      | true => exact ⟨ho, Nat.le_refl _⟩
      | false => exact ⟨hv, hv⟩
  · intro hwf
    refine ⟨?_, ?_, ?_, ?_, ?_, ?_, ?_, ?_⟩
    · obtain ⟨w, he, _⟩ := Resize_spec v n hwf
      exact ⟨w, he⟩
    · obtain ⟨w, he, _⟩ := PushBack_spec v x hwf
      exact ⟨w, he⟩
    · obtain ⟨w, he, _⟩ := PushBack_move_spec v x hwf
      exact ⟨w, he⟩
    · intro hp
      obtain ⟨w, he, _⟩ := Insert_spec v p x hwf hp
      exact ⟨w, he⟩
    · intro hp
      obtain ⟨w, he, _⟩ := Insert_move_spec v p x hwf hp
      exact ⟨w, he⟩
    · intro hp
      obtain ⟨h1, h2⟩ := hwf
      obtain ⟨w, he, _⟩ := Erase_spec v p (by omega) hp
      exact ⟨w, he⟩
    · obtain ⟨h1, h2⟩ := hwf
      obtain ⟨w, he, _⟩ := Reserve_spec v n h1 (by omega)
      exact ⟨w, he⟩
    · intro hol
      cases distinct with
      | true =>
        obtain ⟨w, he, _⟩ := Copy_spec v other hol
        exact ⟨w, by simpa [assign_copy] using he⟩
      | false => exact ⟨v, by simp [assign_copy]⟩

theorem size_le_capacity_invariant_witness :
    (∃ w, (⟨⟨[1, 2]⟩, 2, 2⟩ : SimpleVector Nat).PushBack 7 = .ok w) ∧
    (∀ w, (⟨⟨[1, 2]⟩, 2, 2⟩ : SimpleVector Nat).PushBack 7 = .ok w →
      w.GetSize ≤ w.GetCapacity) ∧
    (∀ r, (⟨⟨[1, 2]⟩, 2, 2⟩ : SimpleVector Nat).Erase 1 = .ok r →
      r.2.GetSize ≤ r.2.GetCapacity) ∧
    (∃ w, (⟨⟨[1, 2]⟩, 2, 2⟩ : SimpleVector Nat).Erase 1 = .ok (1, w)) ∧
    (∃ w, copy_ctor (⟨⟨[5, 6, 0, 0]⟩, 2, 4⟩ : SimpleVector Nat) = .ok w ∧
      w.GetSize ≤ w.GetCapacity) := by
  have h := size_le_capacity_invariant (⟨⟨[1, 2]⟩, 2, 2⟩ : SimpleVector Nat)
    ⟨⟨[5, 6, 0, 0]⟩, 2, 4⟩ 3 1 7 [] ⟨0⟩ true
  have hm := h.2.1 (by decide)
  have ht := h.2.2 (by decide)
  exact ⟨ht.2.1, hm.2.2.1, hm.2.2.2.2.2.2.2.1 (by decide), ht.2.2.2.2.2.1 (by decide),
    h.1.2.2.2.2.2.1 (by decide) (by decide)⟩

/-- The constructor from a capacity-reservation request: size 0, the requested capacity,
and a buffer of that many cells. -/
theorem of_reserve_spec [Element α] (obj : ReserveProxyObj) :
    ∃ w : SimpleVector α, of_reserve obj = .ok w ∧ w.size_ = 0 ∧
      w.capacity_ = obj.capacity_to_reserve_ ∧ w.WellFormed := by
  obtain ⟨w, he, hs, hc, hl, hsame, _⟩ := Reserve_spec (empty : SimpleVector α)
    obj.GetCapacity (Nat.le_refl _) (Nat.zero_le _)
  have hs0 : w.size_ = 0 := hs
  have hcap : w.capacity_ = obj.capacity_to_reserve_ := by
    rw [hc]
    show (if 0 < obj.capacity_to_reserve_ then obj.capacity_to_reserve_ else 0) = _
    split <;> omega
  refine ⟨w, he, hs0, hcap, ?_, ?_⟩
  · omega
  · by_cases hn : 0 < obj.capacity_to_reserve_
    · rw [hl hn]
      exact hcap
    · have hw : w = empty := hsame (by
        show obj.capacity_to_reserve_ ≤ 0
        omega)
      rw [hw]
      exact empty_WellFormed.2

/-- While the new elements fit in the capacity, consecutive `PushBack` calls on a
well-formed container never change the capacity. -/
theorem PushBack_all_within_capacity [Element α] (xs : List α) :
    ∀ v : SimpleVector α, v.WellFormed → v.size_ + xs.length ≤ v.capacity_ →
      ∃ w, v.PushBack_all xs = .ok w ∧ w.WellFormed ∧ w.capacity_ = v.capacity_ ∧
        w.size_ = v.size_ + xs.length := by
  induction xs with
  | nil => intro v h _; exact ⟨v, rfl, h, rfl, rfl⟩
  | cons x xs ih =>
    intro v h hfit
    rw [List.length_cons] at hfit
    obtain ⟨w, he, hw, hs, hc, _, _⟩ := PushBack_spec v x h
    have hlt : v.size_ < v.capacity_ := by omega
    rw [if_pos hlt] at hc
    obtain ⟨u, hu, huw, huc, hus⟩ := ih w hw (by omega)
    refine ⟨u, ?_, huw, by omega, ?_⟩
    · simp [PushBack_all, he, hu]
    · rw [hus, hs, List.length_cons]
      omega

/-- C11: a container constructed from the capacity-reservation request `Reserve(n)` has
size 0 and capacity `n`; after `k <= n` consecutive `PushBack` calls the capacity is
still exactly `n` (and the size is `k`), and only the `PushBack` that follows `n` of them
grows the buffer. -/
theorem reserve_ctor_capacity [Element α] (n : Nat) (xs : List α) :
    ∃ v : SimpleVector α, of_reserve (SimpleVectorModel.Reserve n) = .ok v ∧
      v.GetSize = 0 ∧ v.GetCapacity = n ∧
      (xs.length ≤ n →
        ∃ w, v.PushBack_all xs = .ok w ∧ w.GetCapacity = n ∧ w.GetSize = xs.length) ∧
      (xs.length = n →
        ∀ x, ∃ w u, v.PushBack_all xs = .ok w ∧ w.PushBack x = .ok u ∧
          u.GetCapacity = if n = 0 then 1 else n * 2) := by
  obtain ⟨v, he, hs, hc, hw⟩ := of_reserve_spec (α := α) (SimpleVectorModel.Reserve n)
  have hcn : v.capacity_ = n := hc
  refine ⟨v, he, hs, hcn, ?_, ?_⟩
  · intro hk
    obtain ⟨w, hpw, _, hwc, hws⟩ := PushBack_all_within_capacity xs v hw (by omega)
    exact ⟨w, hpw, by unfold GetCapacity; omega, by unfold GetSize; omega⟩
  · intro hk x
    obtain ⟨w, hpw, hww, hwc, hws⟩ := PushBack_all_within_capacity xs v hw (by omega)
    obtain ⟨u, hpu, _, _, hucap, _, _⟩ := PushBack_spec w x hww
    refine ⟨w, u, hpw, hpu, ?_⟩
    have hfull : ¬ w.size_ < w.capacity_ := by omega
    unfold GetCapacity
    rw [hucap, if_neg hfull, hwc, hcn]

theorem reserve_ctor_capacity_witness :
    ∃ v : SimpleVector Nat, of_reserve (SimpleVectorModel.Reserve 3) = .ok v ∧
      v.GetSize = 0 ∧ v.GetCapacity = 3 ∧
      (∃ w, v.PushBack_all [7, 8, 9] = .ok w ∧ w.GetCapacity = 3 ∧
        w.GetSize = [7, 8, 9].length) ∧
      (∀ x, ∃ w u, v.PushBack_all [7, 8, 9] = .ok w ∧ w.PushBack x = .ok u ∧
        u.GetCapacity = if 3 = 0 then 1 else 3 * 2) := by
  obtain ⟨v, he, hs, hc, h1, h2⟩ := reserve_ctor_capacity 3 ([7, 8, 9] : List Nat)
  exact ⟨v, he, hs, hc, h1 (by decide), h2 (by decide)⟩

/-- C13: move construction and move assignment from a distinct container hand over the
buffer, the size and the capacity of the source unchanged (so also its live elements) and
leave the source with a null buffer, size 0 and capacity 0; move-assigning a container to
itself changes nothing.  The same holds one level down for `ArrayPtr`. -/
theorem move_leaves_source_empty (a b : SimpleVector α) :
    ((move_ctor a).1 = a ∧ (move_ctor a).1.GetSize = a.GetSize ∧
      (move_ctor a).1.GetCapacity = a.GetCapacity ∧ (move_ctor a).1.live = a.live ∧
      (move_ctor a).2.GetSize = 0 ∧ (move_ctor a).2.GetCapacity = 0 ∧
      (move_ctor a).2.items_ = ArrayPtr.null) ∧
    ((b.assign_move a true).1 = a ∧ (b.assign_move a true).1.GetSize = a.GetSize ∧
      (b.assign_move a true).1.GetCapacity = a.GetCapacity ∧
      (b.assign_move a true).1.live = a.live ∧
      (b.assign_move a true).2.GetSize = 0 ∧ (b.assign_move a true).2.GetCapacity = 0 ∧
      (b.assign_move a true).2.items_ = ArrayPtr.null) ∧
    a.assign_move a false = (a, a) ∧
    (ArrayPtr.move_ctor a.items_ = (a.items_, ArrayPtr.null) ∧
      ArrayPtr.move_assign b.items_ a.items_ true = (a.items_, ArrayPtr.null) ∧
      ArrayPtr.move_assign a.items_ a.items_ false = (a.items_, a.items_)) := by
  refine ⟨⟨rfl, rfl, rfl, rfl, rfl, rfl, rfl⟩, ⟨rfl, rfl, rfl, rfl, rfl, rfl, rfl⟩, rfl,
    rfl, rfl, rfl⟩

/-- C17: `SimpleVector(n)` has size `n`, capacity `n` and every element equal to
`Type()` (`{0, 0, 0}` for `n = 3` over integers); `SimpleVector(n, x)` has size `n`,
capacity `n` and every element equal to `x`; the constructor from a literal list `l` has
size and capacity `l.size()` and element `i` equal to `l[i]` for every `i`. -/
theorem constructors_contents [Element α] (n : Nat) (x : α) (l : List α) :
    (∃ w : SimpleVector α, with_size n = .ok w ∧ w.GetSize = n ∧ w.GetCapacity = n ∧
      w.live = List.replicate n Element.value_init ∧
      ∀ i, i < n → w.index i = .ok Element.value_init) ∧
    (∃ w, with_value n x = .ok w ∧ w.GetSize = n ∧ w.GetCapacity = n ∧
      w.live = List.replicate n x ∧ ∀ i, i < n → w.index i = .ok x) ∧
    (∃ w, of_init l = .ok w ∧ w.GetSize = l.length ∧ w.GetCapacity = l.length ∧
      w.live = l ∧ ∀ i y, l[i]? = some y → w.index i = .ok y) ∧
    (with_size 3 : Except Fault (SimpleVector Nat)) = .ok ⟨⟨[0, 0, 0]⟩, 3, 3⟩ := by
  refine ⟨?_, ?_, ?_, rfl⟩
  · obtain ⟨w, he, hs, hc, hl, hj⟩ := with_size_spec (α := α) n
    refine ⟨w, he, hs, hc, ?_, fun i hi => (index_eq_ok_iff _ _ _).2 (hj i hi)⟩
    apply List.ext_getElem?
    intro j
    rw [live_getElem?, hs, List.getElem?_replicate]
    by_cases c : j < n
    · rw [if_pos c, if_pos c, hj j c]
    · rw [if_neg c, if_neg c]
  · obtain ⟨w, he, hs, hc, hl, hj⟩ := with_value_spec n x
    refine ⟨w, he, hs, hc, ?_, fun i hi => (index_eq_ok_iff _ _ _).2 (hj i hi)⟩
    apply List.ext_getElem?
    intro j
    rw [live_getElem?, hs, List.getElem?_replicate]
    by_cases c : j < n
    · rw [if_pos c, if_pos c, hj j c]
    · rw [if_neg c, if_neg c]
  · obtain ⟨w, he, hs, hc, hl, hj⟩ := of_init_spec l
    refine ⟨w, he, hs, hc, ?_, ?_⟩
    · apply List.ext_getElem?
      intro j
      rw [live_getElem?, hs]
      by_cases c : j < l.length
      · rw [if_pos c, hj j c]
      · rw [if_neg c, List.getElem?_eq_none (by omega)]
    · intro i y hy
      have hi : i < l.length := by
        by_contra hc
        rw [List.getElem?_eq_none (by omega)] at hy
        cases hy
      rw [index_eq_ok_iff, hj i hi, hy]

theorem constructors_contents_witness :
    (∃ w : SimpleVector Nat, with_value 2 7 = .ok w ∧ w.live = List.replicate 2 7) ∧
    (∃ w : SimpleVector Nat, of_init [1, 2, 3] = .ok w ∧ w.GetSize = 3 ∧
      w.GetCapacity = 3 ∧ w.live = [1, 2, 3] ∧ w.index 1 = .ok 2) := by
  obtain ⟨_, ⟨w2, h2, _, _, hl2, _⟩, ⟨w3, h3, hs, hc, hl3, hi⟩, _⟩ :=
    constructors_contents 2 (7 : Nat) [1, 2, 3]
  exact ⟨⟨w2, h2, hl2⟩, ⟨w3, h3, hs, hc, hl3, hi 1 2 (by decide)⟩⟩

/-- `std::copy_backward` of an empty range writes nothing. -/
theorem std_copy_backward_empty (buf : List α) (p d : Nat) :
    std_copy_backward buf p p d = .ok buf := by
  simp [std_copy_backward, copy_backward_loop]

/-- `std::copy` of an empty range writes nothing. -/
theorem std_copy_empty (src dst : List α) (p d : Nat) :
    std_copy src p p dst d = .ok dst := by
  simp [std_copy, while_ne]

/-- The by-copy `Insert` at `end()` runs exactly as `PushBack` does: same result, same
container, or the same failure. -/
theorem Insert_end_eq_PushBack [Element α] (v : SimpleVector α) (x : α) :
    v.Insert v.end_ x =
      match v.PushBack x with
      | .ok w => .ok (v.size_, w)
      | .error e => .error e := by
  unfold Insert PushBack
  by_cases hlt : v.size_ < v.capacity_
  · simp only [if_pos hlt, end_, begin, Nat.zero_add, Nat.sub_zero, std_copy_backward_empty,
      ArrayPtr.assign, ArrayPtr.Get]
    cases store v.items_.raw_ptr_ v.size_ x <;> rfl
  · simp only [if_neg hlt, end_, begin, Nat.zero_add, Nat.sub_zero, std_copy_empty,
      ArrayPtr.assign, ArrayPtr.swap, ArrayPtr.Get]
    cases std_copy v.items_.raw_ptr_ 0 v.size_
        (ArrayPtr.alloc (if v.capacity_ = 0 then 1 else v.capacity_ * 2) : ArrayPtr α).raw_ptr_
        0 with
    | error e => rfl
    | ok buf =>
      simp only []
      cases store buf v.size_ x <;> rfl

/-- C20: `Insert(end(), x)` is `PushBack(x)`: the two calls give the same container (or
fail alike) on any container, and on a well-formed one both return, in the in-place
branch and in the reallocating branch, with the same live sequence, the same size and
the same capacity, the iterator returned by `Insert` being at index `old_size`. -/
theorem Insert_at_end_is_PushBack [Element α] (v : SimpleVector α) (x : α) :
    (∀ w, v.PushBack x = .ok w → v.Insert v.end_ x = .ok (v.GetSize, w)) ∧
    (∀ r, v.Insert v.end_ x = .ok r → r.1 = v.GetSize ∧ v.PushBack x = .ok r.2) ∧
    (v.WellFormed →
      ∃ w1 w2, v.Insert v.end_ x = .ok (v.GetSize, w1) ∧ v.PushBack x = .ok w2 ∧
        w1.live = w2.live ∧ w2.live = v.live ++ [x] ∧ w1.GetSize = w2.GetSize ∧
        w1.GetCapacity = w2.GetCapacity ∧
        (v.GetSize < v.GetCapacity → w2.GetCapacity = v.GetCapacity) ∧
        (¬ v.GetSize < v.GetCapacity →
          w2.GetCapacity = if v.GetCapacity = 0 then 1 else v.GetCapacity * 2)) := by
  have key := Insert_end_eq_PushBack v x
  refine ⟨?_, ?_, ?_⟩
  · intro w hw
    rw [key, hw]
    rfl
  · intro r hr
    rw [key] at hr
    cases hp : v.PushBack x with
    | ok w =>
      rw [hp] at hr
      cases hr
      exact ⟨rfl, rfl⟩
    | error e =>
      rw [hp] at hr
      cases hr
  · intro h
    obtain ⟨w, he, _, hs, hc, hlo, hx⟩ := PushBack_spec v x h
    obtain ⟨h1, h2⟩ := h
    have hlive : w.live = v.live ++ [x] := by
      have hl := live_insert v w v.size_ x (by omega) (Nat.le_refl _) hs hlo hx
        (fun j hj1 hj2 => by omega)
      rw [hl]
      have hll := live_length v (by omega)
      rw [List.take_of_length_le (by omega), List.drop_of_length_le (by omega)]
      simp
    refine ⟨w, w, ?_, he, rfl, hlive, rfl, rfl, ?_, ?_⟩
    · rw [key, he]
      rfl
    · intro hlt
      unfold GetSize GetCapacity at hlt
      unfold GetCapacity
      rw [hc, if_pos hlt]
    · intro hlt
      unfold GetSize GetCapacity at hlt
      unfold GetCapacity
      rw [hc, if_neg hlt]

theorem Insert_at_end_is_PushBack_witness :
    (∃ w1 w2, (⟨⟨[1, 2, 3]⟩, 3, 3⟩ : SimpleVector Nat).Insert 3 9 = .ok (3, w1) ∧
      (⟨⟨[1, 2, 3]⟩, 3, 3⟩ : SimpleVector Nat).PushBack 9 = .ok w2 ∧
      w1.live = w2.live ∧ w1.GetSize = w2.GetSize ∧ w1.GetCapacity = w2.GetCapacity) ∧
    (∃ w1 w2, (⟨⟨[1, 2, 3, 0]⟩, 3, 4⟩ : SimpleVector Nat).Insert 3 9 = .ok (3, w1) ∧
      (⟨⟨[1, 2, 3, 0]⟩, 3, 4⟩ : SimpleVector Nat).PushBack 9 = .ok w2 ∧
      w1.live = w2.live ∧ w1.GetSize = w2.GetSize ∧ w1.GetCapacity = w2.GetCapacity) := by
  obtain ⟨w1, w2, h1, h2, h3, _, h4, h5, _⟩ :=
    (Insert_at_end_is_PushBack (⟨⟨[1, 2, 3]⟩, 3, 3⟩ : SimpleVector Nat) 9).2.2 (by decide)
  obtain ⟨u1, u2, g1, g2, g3, _, g4, g5, _⟩ :=
    (Insert_at_end_is_PushBack (⟨⟨[1, 2, 3, 0]⟩, 3, 4⟩ : SimpleVector Nat) 9).2.2 (by decide)
  exact ⟨⟨w1, w2, h1, h2, h3, h4, h5⟩, ⟨u1, u2, g1, g2, g3, g4, g5⟩⟩

/-- The by-move `Insert` yields `s[0..p) ++ [x] ++ s[p..size)` when it reallocates, or
when at most one element lies after the position. -/
theorem Insert_move_live [Element α] (v : SimpleVector α) (p : Nat) (x : α)
    (h : v.WellFormed) (hp : p ≤ v.size_)
    (hok : ¬ v.size_ < v.capacity_ ∨ v.size_ ≤ p + 1) :
    ∃ w, v.Insert_move p x = .ok (p, w) ∧
      w.live = v.live.take p ++ [x] ++ v.live.drop p := by
  obtain ⟨w, he, _, hs, _, hlo, hx, hin, hre⟩ := Insert_move_spec v p x h hp
  obtain ⟨h1, h2⟩ := h
  have hhi : ∀ j, p < j → j ≤ v.size_ →
      w.items_.raw_ptr_[j]? = v.items_.raw_ptr_[j - 1]? := by
    intro j hj1 hj2
    by_cases hlt : v.size_ < v.capacity_
    · have hsp : v.size_ ≤ p + 1 := by
        rcases hok with hc | hc
        · exact absurd hlt hc
        · exact hc
      have hj : j = v.size_ := by omega
      have hpm : v.size_ - 1 = p := by omega
      rw [hj, (hin hlt).2 (by omega), hpm]
    · exact hre hlt j hj1 hj2
  exact ⟨w, he, live_insert v w p x (by omega) hp hs hlo hx hhi⟩

/-- C18 (the code at the failing input): `Copy` builds its buffer with `other.size_`
cells and then records `other.capacity_`, so copying a well-formed container with
`size < capacity` leaves a container whose capacity exceeds its allocation, and the
in-place branch of the next `PushBack` writes outside the buffer.  For the source
`{5}` with capacity 4 the copy has one allocated cell and capacity 4, and `PushBack`,
`Insert` and a growing `Resize` within that capacity all leave the buffer. -/
theorem Copy_capacity_exceeds_allocation :
    (∀ (β : Type) [Element β] (self other : SimpleVector β) (x : β),
      other.WellFormed → other.GetSize < other.GetCapacity →
      ∃ w, self.Copy other = .ok w ∧ w.items_.Get.length = other.GetSize ∧
        w.GetCapacity = other.GetCapacity ∧ w.items_.Get.length < w.GetCapacity ∧
        ¬ w.WellFormed ∧ w.PushBack x = .error .undefined_behaviour) ∧
    ((⟨⟨[5, 0, 0, 0]⟩, 1, 4⟩ : SimpleVector Nat).WellFormed ∧
      copy_ctor (⟨⟨[5, 0, 0, 0]⟩, 1, 4⟩ : SimpleVector Nat) = .ok ⟨⟨[5]⟩, 1, 4⟩ ∧
      (⟨⟨[9, 9]⟩, 2, 2⟩ : SimpleVector Nat).assign_copy ⟨⟨[5, 0, 0, 0]⟩, 1, 4⟩ true
        = .ok ⟨⟨[5]⟩, 1, 4⟩ ∧
      ¬ (⟨⟨[5]⟩, 1, 4⟩ : SimpleVector Nat).WellFormed ∧
      (⟨⟨[5]⟩, 1, 4⟩ : SimpleVector Nat).PushBack 6 = .error .undefined_behaviour ∧
      (⟨⟨[5]⟩, 1, 4⟩ : SimpleVector Nat).PushBack_move 6 = .error .undefined_behaviour ∧
      (⟨⟨[5]⟩, 1, 4⟩ : SimpleVector Nat).Insert 0 6 = .error .undefined_behaviour ∧
      (⟨⟨[5]⟩, 1, 4⟩ : SimpleVector Nat).Insert_move 0 6 = .error .undefined_behaviour ∧
      (⟨⟨[5]⟩, 1, 4⟩ : SimpleVector Nat).Resize 3 = .error .undefined_behaviour) := by
  refine ⟨?_, by decide, rfl, rfl, by decide, rfl, rfl, rfl, rfl, rfl⟩
  intro β _ self other x hwf hlt
  unfold GetSize GetCapacity at hlt
  obtain ⟨h1, h2⟩ := hwf
  obtain ⟨w, he, hs, hc, hl, _⟩ := Copy_spec self other (by omega)
  have hnl : ¬ w.size_ < w.items_.raw_ptr_.length := by omega
  have hwlt : w.size_ < w.capacity_ := by omega
  refine ⟨w, he, hl, hc, ?_, ?_, ?_⟩
  · show w.items_.raw_ptr_.length < w.capacity_
    omega
  · intro hw
    have := hw.2
    omega
  · simp [PushBack, hwlt, ArrayPtr.assign, store, hnl]

/-- C19 (the code at the failing input): with `{a, b, c}` in a buffer of capacity 4 the
by-move `Insert(begin(), x)` runs in place and, walking forward, overwrites `b` and `c`
before they are moved: the live sequence becomes `{x, m, m, a}` with `m` the moved-from
state of `a`, where the by-copy overload yields `{x, a, b, c}`.  For the strings
`{"a", "b", "c"}` and the integers `{1, 2, 3}` the two results differ. -/
theorem Insert_move_in_place_overwrites :
    (∀ (β : Type) [Element β] (a b c d x : β),
      (⟨⟨[a, b, c, d]⟩, 3, 4⟩ : SimpleVector β).WellFormed ∧
      ((⟨⟨[a, b, c, d]⟩, 3, 4⟩ : SimpleVector β).Insert_move 0 x).map (fun r => r.2.live)
        = .ok [x, Element.moved_from a, Element.moved_from a, a] ∧
      ((⟨⟨[a, b, c, d]⟩, 3, 4⟩ : SimpleVector β).Insert 0 x).map (fun r => r.2.live)
        = .ok [x, a, b, c]) ∧
    (((⟨⟨["a", "b", "c", ""]⟩, 3, 4⟩ : SimpleVector String).Insert_move 0 "x").map
        (fun r => r.2.live) = .ok ["x", "", "", "a"] ∧
      ["x", "", "", "a"] ≠
        (⟨⟨["a", "b", "c", ""]⟩, 3, 4⟩ : SimpleVector String).live.take 0 ++ ["x"] ++
          (⟨⟨["a", "b", "c", ""]⟩, 3, 4⟩ : SimpleVector String).live.drop 0) ∧
    (((⟨⟨[1, 2, 3, 0]⟩, 3, 4⟩ : SimpleVector Nat).Insert_move 0 99).map
        (fun r => r.2.live) = .ok [99, 1, 1, 1] ∧
      [99, 1, 1, 1] ≠
        (⟨⟨[1, 2, 3, 0]⟩, 3, 4⟩ : SimpleVector Nat).live.take 0 ++ [99] ++
          (⟨⟨[1, 2, 3, 0]⟩, 3, 4⟩ : SimpleVector Nat).live.drop 0) := by
  refine ⟨?_, ⟨rfl, by decide⟩, ⟨rfl, by decide⟩⟩
  intro β _ a b c d x
  exact ⟨⟨Nat.le_of_lt (Nat.lt_succ_self 3), rfl⟩, rfl, rfl⟩

/-- `std::equal` over `[first, last)` of two arrays that both hold these cells: the answer
is `true` exactly when the cells are pairwise `==`. -/
theorem equal_loop_spec [BEq α] (a b : List α) (last : Nat) :
    ∀ (fuel first : Nat), first ≤ last → last ≤ a.length → last ≤ b.length →
      last - first < fuel →
      ∃ r, equal_loop a b fuel first last first = .ok r ∧
        (r = true ↔ ∀ i, first ≤ i → i < last →
          ∃ x y, a[i]? = some x ∧ b[i]? = some y ∧ (x == y) = true) := by
  intro fuel
  induction fuel with
  | zero => intro first _ _ _ h; omega
  | succ n ih =>
    intro first h1 ha hb h2
    by_cases hfl : first = last
    · subst hfl
      refine ⟨true, by simp [equal_loop], ?_⟩
      constructor
      · intro _ i hi1 hi2
        omega
      · intro _
        rfl
    · have hfa : first < a.length := by omega
      have hfb : first < b.length := by omega
      by_cases hxy : (a[first] == b[first]) = true
      · obtain ⟨r, he, hr⟩ := ih (first + 1) (by omega) ha hb (by omega)
        refine ⟨r, ?_, ?_⟩
        · rw [equal_loop, if_pos hfl, load_of_lt hfa, load_of_lt hfb]
          simp only [hxy, Bool.not_true, Bool.false_eq_true, if_false]
          exact he
        · rw [hr]
          constructor
          · intro hall i hi1 hi2
            by_cases c : i = first
            · subst c
              exact ⟨a[i], b[i], by simp [hfa], by simp [hfb], hxy⟩
            · exact hall i (by omega) hi2
          · intro hall i hi1 hi2
            exact hall i (by omega) hi2
      · refine ⟨false, ?_, ?_⟩
        · rw [equal_loop, if_pos hfl, load_of_lt hfa, load_of_lt hfb]
          simp [hxy]
        · constructor
          · intro hc
            cases hc
          · intro hall
            obtain ⟨x, y, hx, hy, hxy2⟩ := hall first (Nat.le_refl _) (by omega)
            rw [List.getElem?_eq_getElem hfa] at hx
            rw [List.getElem?_eq_getElem hfb] at hy
            cases hx
            cases hy
            exact absurd hxy2 hxy

/-- `operator==` on two distinct containers whose live cells are allocated. -/
theorem eq_spec [BEq α] (a b : SimpleVector α) (ha : a.size_ ≤ a.items_.raw_ptr_.length)
    (hb : b.size_ ≤ b.items_.raw_ptr_.length) :
    ∃ r, a.eq b false = .ok r ∧
      (r = true ↔ a.size_ = b.size_ ∧ ∀ i, i < a.size_ →
        ∃ x y, a.items_.raw_ptr_[i]? = some x ∧ b.items_.raw_ptr_[i]? = some y ∧
          (x == y) = true) := by
  by_cases hs : a.size_ = b.size_
  · obtain ⟨r, he, hr⟩ := equal_loop_spec a.items_.raw_ptr_ b.items_.raw_ptr_ a.size_
      (a.items_.raw_ptr_.length + 1) 0 (Nat.zero_le _) ha (by omega) (by omega)
    refine ⟨r, ?_, ?_⟩
    · have hne : ¬ a.GetSize ≠ b.GetSize := by simp [GetSize, hs]
      simp only [eq, Bool.false_eq_true, if_false, if_neg hne, std_equal, begin, end_,
        ArrayPtr.Get, Nat.zero_add]
      exact he
    · rw [hr]
      constructor
      · intro hall
        exact ⟨hs, fun i hi => hall i (Nat.zero_le _) hi⟩
      · intro hall i _ hi
        exact hall.2 i hi
  · refine ⟨false, ?_, ?_⟩
    · have hne : a.GetSize ≠ b.GetSize := hs
      simp [eq, hne]
    · constructor
      · intro hc
        cases hc
      · intro hall
        exact absurd hall.1 hs

/-- Reading a live cell with `operator[]` is reading the live sequence. -/
theorem index_eq_live (v : SimpleVector α) (i : Nat) (x : α) (hi : i < v.size_) :
    v.index i = .ok x ↔ v.live[i]? = some x := by
  rw [index_eq_ok_iff, live_getElem?, if_pos hi]

/-- `operator==` and `operator!=` between distinct containers, read through `operator[]`. -/
theorem eq_iff_elements [BEq α] (a b : SimpleVector α)
    (ha : a.size_ ≤ a.items_.raw_ptr_.length) (hb : b.size_ ≤ b.items_.raw_ptr_.length) :
    ∃ r, a.eq b false = .ok r ∧ a.ne b false = .ok (!r) ∧
      (r = true ↔ a.GetSize = b.GetSize ∧ ∀ i, i < a.GetSize →
        ∃ x y, a.index i = .ok x ∧ b.index i = .ok y ∧ (x == y) = true) := by
  obtain ⟨r, he, hr⟩ := eq_spec a b ha hb
  refine ⟨r, he, by simp [ne, he], ?_⟩
  rw [hr]
  unfold GetSize
  constructor
  · rintro ⟨hs, hall⟩
    refine ⟨hs, fun i hi => ?_⟩
    obtain ⟨x, y, hx, hy, hxy⟩ := hall i hi
    exact ⟨x, y, (index_eq_ok_iff _ _ _).2 hx, (index_eq_ok_iff _ _ _).2 hy, hxy⟩
  · rintro ⟨hs, hall⟩
    refine ⟨hs, fun i hi => ?_⟩
    obtain ⟨x, y, hx, hy, hxy⟩ := hall i hi
    exact ⟨x, y, (index_eq_ok_iff _ _ _).1 hx, (index_eq_ok_iff _ _ _).1 hy, hxy⟩

/-- `operator==` between distinct containers depends on the live sequences only. -/
theorem eq_of_live [BEq α] (a b a1 b1 : SimpleVector α)
    (ha : a.size_ ≤ a.items_.raw_ptr_.length) (hb : b.size_ ≤ b.items_.raw_ptr_.length)
    (ha1 : a1.size_ ≤ a1.items_.raw_ptr_.length)
    (hb1 : b1.size_ ≤ b1.items_.raw_ptr_.length)
    (hla : a1.live = a.live) (hlb : b1.live = b.live) :
    a1.eq b1 false = a.eq b false := by
  obtain ⟨r, he, _, hr⟩ := eq_iff_elements a b ha hb
  obtain ⟨r1, he1, _, hr1⟩ := eq_iff_elements a1 b1 ha1 hb1
  have hsa : a1.size_ = a.size_ := by
    rw [← live_length a1 ha1, ← live_length a ha, hla]
  have hsb : b1.size_ = b.size_ := by
    rw [← live_length b1 hb1, ← live_length b hb, hlb]
  have hrr : r1 = r := by
    rw [Bool.eq_iff_iff, hr, hr1]
    unfold GetSize
    constructor
    · rintro ⟨hs, hall⟩
      refine ⟨by omega, fun i hi => ?_⟩
      obtain ⟨x, y, hx, hy, hxy⟩ := hall i (by omega)
      rw [index_eq_live _ _ _ (by omega)] at hx hy
      exact ⟨x, y, (index_eq_live _ _ _ hi).2 (hla ▸ hx),
        (index_eq_live _ _ _ (by omega)).2 (hlb ▸ hy), hxy⟩
    · rintro ⟨hs, hall⟩
      refine ⟨by omega, fun i hi => ?_⟩
      obtain ⟨x, y, hx, hy, hxy⟩ := hall i (by omega)
      rw [index_eq_live _ _ _ (by omega)] at hx hy
      exact ⟨x, y, (index_eq_live _ _ _ hi).2 (hla ▸ hx),
        (index_eq_live _ _ _ (by omega)).2 (hlb ▸ hy), hxy⟩
  rw [he, he1, hrr]

/-- C14: for two containers whose live cells are allocated, `a == b` returns `true`
exactly when they have the same size and `a[i] == b[i]` for every `i < size`; the answer
is the same for any other pair of containers with the same live sequences, whatever their
capacities and the content of their cells at indices `>= size`; `a != b` returns the
negation of `a == b`; and a container compared with itself is equal without any element
being looked at. -/
theorem eq_contract [BEq α] (a b : SimpleVector α)
    (ha : a.GetSize ≤ a.items_.Get.length) (hb : b.GetSize ≤ b.items_.Get.length) :
    (∃ r, a.eq b false = .ok r ∧ a.ne b false = .ok (!r) ∧
      (r = true ↔ a.GetSize = b.GetSize ∧ ∀ i, i < a.GetSize →
        ∃ x y, a.index i = .ok x ∧ b.index i = .ok y ∧ (x == y) = true)) ∧
    (∀ a1 b1 : SimpleVector α, a1.GetSize ≤ a1.items_.Get.length →
      b1.GetSize ≤ b1.items_.Get.length → a1.live = a.live → b1.live = b.live →
      a1.eq b1 false = a.eq b false ∧ a1.ne b1 false = a.ne b false) ∧
    (a.eq a true = .ok true ∧ a.ne a true = .ok false) := by
  refine ⟨eq_iff_elements a b ha hb, ?_, by simp [eq], by simp [ne, eq]⟩
  intro a1 b1 ha1 hb1 hla hlb
  have h := eq_of_live a b a1 b1 ha hb ha1 hb1 hla hlb
  exact ⟨h, by simp [ne, h]⟩

theorem eq_contract_witness :
    (∃ r, (⟨⟨[1, 2, 3, 0]⟩, 3, 4⟩ : SimpleVector Nat).eq ⟨⟨[1, 2, 3]⟩, 3, 3⟩ false = .ok r ∧
      (⟨⟨[1, 2, 3, 0]⟩, 3, 4⟩ : SimpleVector Nat).ne ⟨⟨[1, 2, 3]⟩, 3, 3⟩ false = .ok (!r) ∧
      (r = true ↔
        (⟨⟨[1, 2, 3, 0]⟩, 3, 4⟩ : SimpleVector Nat).GetSize
          = (⟨⟨[1, 2, 3]⟩, 3, 3⟩ : SimpleVector Nat).GetSize ∧
        ∀ i, i < (⟨⟨[1, 2, 3, 0]⟩, 3, 4⟩ : SimpleVector Nat).GetSize →
          ∃ x y, (⟨⟨[1, 2, 3, 0]⟩, 3, 4⟩ : SimpleVector Nat).index i = .ok x ∧
            (⟨⟨[1, 2, 3]⟩, 3, 3⟩ : SimpleVector Nat).index i = .ok y ∧ (x == y) = true)) ∧
    (⟨⟨[1, 2, 3, 8, 8, 8]⟩, 3, 6⟩ : SimpleVector Nat).eq ⟨⟨[1, 2, 3, 5]⟩, 3, 4⟩ false
      = (⟨⟨[1, 2, 3, 0]⟩, 3, 4⟩ : SimpleVector Nat).eq ⟨⟨[1, 2, 3]⟩, 3, 3⟩ false := by
  have h := eq_contract (⟨⟨[1, 2, 3, 0]⟩, 3, 4⟩ : SimpleVector Nat) ⟨⟨[1, 2, 3]⟩, 3, 3⟩
    (by decide) (by decide)
  exact ⟨h.1, (h.2.1 ⟨⟨[1, 2, 3, 8, 8, 8]⟩, 3, 6⟩ ⟨⟨[1, 2, 3, 5]⟩, 3, 4⟩ (by decide)
    (by decide) rfl rfl).1⟩

/-- C12: copy-constructing `B` from `A`, or copy-assigning `A` to another container `B`,
returns (the live cells of `A` being allocated) and gives `B` the size of `A` and the live
elements of `A` in the same order, so that `B == A`; copy-assigning a container to itself
leaves it as it is.  `A` is read through a const reference: no operation of the copy
writes to it, and the functions of the embedding have no new state for it. -/
theorem copy_equals_source [Element α] [BEq α] [LawfulBEq α] (a b : SimpleVector α)
    (ha : a.GetSize ≤ a.items_.Get.length) :
    (∃ w, copy_ctor a = .ok w ∧ w.GetSize = a.GetSize ∧ w.live = a.live ∧
      (∀ i, i < a.GetSize → ∃ y, a.index i = .ok y ∧ w.index i = .ok y) ∧
      w.eq a false = .ok true ∧ a.eq w false = .ok true) ∧
    (∃ w, b.assign_copy a true = .ok w ∧ w.GetSize = a.GetSize ∧ w.live = a.live ∧
      (∀ i, i < a.GetSize → ∃ y, a.index i = .ok y ∧ w.index i = .ok y) ∧
      w.eq a false = .ok true ∧ a.eq w false = .ok true) ∧
    a.assign_copy a false = .ok a := by
  unfold GetSize ArrayPtr.Get at ha
  have core : ∀ self : SimpleVector α, ∃ w, self.Copy a = .ok w ∧ w.GetSize = a.GetSize ∧
      w.live = a.live ∧
      (∀ i, i < a.GetSize → ∃ y, a.index i = .ok y ∧ w.index i = .ok y) ∧
      w.eq a false = .ok true ∧ a.eq w false = .ok true := by
    intro self
    obtain ⟨w, he, hs, _, hl, hj⟩ := Copy_spec self a ha
    refine ⟨w, he, hs, ?_, ?_, eq_of_cells w a hs (by omega) ha hj,
      eq_of_cells a w hs.symm ha (by omega) (fun j hjw => (hj j (by omega)).symm)⟩
    · apply List.ext_getElem?
      intro j
      rw [live_getElem?, live_getElem?, hs]
      by_cases c : j < a.size_
      · rw [if_pos c, if_pos c, hj j c]
      · rw [if_neg c, if_neg c]
    · intro i hi
      unfold GetSize at hi
      exact index_unchanged a w i (by omega) (hj i hi)
  refine ⟨core empty, ?_, by simp [assign_copy]⟩
  obtain ⟨w, he, hrest⟩ := core b
  exact ⟨w, by simpa [assign_copy] using he, hrest⟩

theorem copy_equals_source_witness :
    (∃ w, copy_ctor (⟨⟨[5, 6, 0, 0]⟩, 2, 4⟩ : SimpleVector Nat) = .ok w ∧
      w.GetSize = (⟨⟨[5, 6, 0, 0]⟩, 2, 4⟩ : SimpleVector Nat).GetSize ∧
      w.live = (⟨⟨[5, 6, 0, 0]⟩, 2, 4⟩ : SimpleVector Nat).live ∧
      w.eq ⟨⟨[5, 6, 0, 0]⟩, 2, 4⟩ false = .ok true) ∧
    (∃ w, (⟨⟨[9]⟩, 1, 1⟩ : SimpleVector Nat).assign_copy ⟨⟨[5, 6, 0, 0]⟩, 2, 4⟩ true = .ok w ∧
      w.live = (⟨⟨[5, 6, 0, 0]⟩, 2, 4⟩ : SimpleVector Nat).live ∧
      w.eq ⟨⟨[5, 6, 0, 0]⟩, 2, 4⟩ false = .ok true) := by
  obtain ⟨⟨w, he, hs, hl, _, heq, _⟩, ⟨u, hu, _, hul, _, hueq, _⟩, _⟩ :=
    copy_equals_source (⟨⟨[5, 6, 0, 0]⟩, 2, 4⟩ : SimpleVector Nat) ⟨⟨[9]⟩, 1, 1⟩ (by decide)
  exact ⟨⟨w, he, hs, hl, heq⟩, ⟨u, hu, hul, hueq⟩⟩

/-- The cells `[first, n)` of an array, cut off one cell at a time. -/
theorem take_drop_cons (l : List α) (n first : Nat) (h1 : first < n) (h2 : n ≤ l.length)
    (hf : first < l.length) :
    (l.take n).drop first = l[first] :: (l.take n).drop (first + 1) := by
  have hlen : first < (l.take n).length := by
    rw [List.length_take]
    omega
  rw [List.drop_eq_getElem_cons hlen, List.getElem_take]

theorem take_drop_nil (l : List α) (n first : Nat) (h1 : n ≤ first) :
    (l.take n).drop first = [] :=
  List.drop_eq_nil_of_le (Nat.le_trans (List.length_take_le n l) h1)

theorem lexicographic_less_nil_left [LT α] [∀ x y : α, Decidable (x < y)] (l : List α) :
    lexicographic_less [] l = !l.isEmpty := by
  cases l <;> rfl

theorem lexicographic_less_nil_right [LT α] [∀ x y : α, Decidable (x < y)] (l : List α) :
    lexicographic_less l [] = false := by
  cases l <;> rfl

/-- `std::lexicographical_compare` over `[first, last1)` and `[first, last2)` of two arrays
that hold these cells computes the lexicographic comparison of the two ranges. -/
theorem lexicographical_compare_loop_spec [LT α] [∀ x y : α, Decidable (x < y)]
    (a b : List α) (last1 last2 : Nat) :
    ∀ (fuel first : Nat), first ≤ last1 → first ≤ last2 → last1 ≤ a.length →
      last2 ≤ b.length → last1 - first < fuel →
      lexicographical_compare_loop a b fuel first last1 first last2
        = .ok (lexicographic_less ((a.take last1).drop first) ((b.take last2).drop first)) := by
  intro fuel
  induction fuel with
  | zero => intro first _ _ _ _ h; omega
  | succ n ih =>
    intro first h1 h2 ha hb hfuel
    by_cases c1 : first = last1
    · have hcond : ¬ (first ≠ last1 ∧ first ≠ last2) := fun h => h.1 c1
      rw [lexicographical_compare_loop, if_neg hcond, take_drop_nil a last1 first (by omega),
        lexicographic_less_nil_left]
      by_cases c2 : first = last2
      · rw [take_drop_nil b last2 first (by omega)]
        simp [c2]
      · rw [take_drop_cons b last2 first (by omega) hb (by omega)]
        have c3 : ¬ last1 = last2 := by omega
        simp [c1, c3]
    · by_cases c2 : first = last2
      · have hcond : ¬ (first ≠ last1 ∧ first ≠ last2) := fun h => h.2 c2
        rw [lexicographical_compare_loop, if_neg hcond,
          take_drop_nil b last2 first (by omega), lexicographic_less_nil_right]
        simp [c1]
      · have hfa : first < a.length := by omega
        have hfb : first < b.length := by omega
        rw [lexicographical_compare_loop, if_pos ⟨c1, c2⟩, load_of_lt hfa, load_of_lt hfb,
          take_drop_cons a last1 first (by omega) ha hfa,
          take_drop_cons b last2 first (by omega) hb hfb]
        simp only [lexicographic_less]
        by_cases c3 : a[first] < b[first]
        · simp [c3]
        · by_cases c4 : b[first] < a[first]
          · simp [c3, c4]
          · simp only [c3, c4, if_false]
            exact ih (first + 1) (by omega) (by omega) ha hb (by omega)

/-- `operator<` on containers whose live cells are allocated returns the lexicographic
comparison of the live sequences. -/
theorem lt_spec [LT α] [∀ x y : α, Decidable (x < y)] (a b : SimpleVector α)
    (ha : a.size_ ≤ a.items_.raw_ptr_.length) (hb : b.size_ ≤ b.items_.raw_ptr_.length) :
    a.lt b = .ok (lexicographic_less a.live b.live) := by
  have h := lexicographical_compare_loop_spec a.items_.raw_ptr_ b.items_.raw_ptr_
    a.size_ b.size_ (a.items_.raw_ptr_.length + 1) 0 (Nat.zero_le _) (Nat.zero_le _) ha hb
    (by omega)
  simpa [lt, std_lexicographical_compare, begin, end_, ArrayPtr.Get, live] using h

theorem lexicographic_less_cons_lt [LinearOrder α] (x y : α) (xs ys : List α) (h : x < y) :
    lexicographic_less (x :: xs) (y :: ys) = true := by
  simp [lexicographic_less, h]

theorem lexicographic_less_cons_gt [LinearOrder α] (x y : α) (xs ys : List α) (h : y < x) :
    lexicographic_less (x :: xs) (y :: ys) = false := by
  simp [lexicographic_less, h, not_lt_of_lt h]

theorem lexicographic_less_cons_same [LinearOrder α] (x : α) (xs ys : List α) :
    lexicographic_less (x :: xs) (x :: ys) = lexicographic_less xs ys := by
  simp [lexicographic_less]

theorem lexicographic_less_irrefl [LinearOrder α] (l : List α) :
    lexicographic_less l l = false := by
  induction l with
  | nil => rfl
  | cons x xs ih => rw [lexicographic_less_cons_same, ih]

theorem lexicographic_less_trans [LinearOrder α] :
    ∀ (l1 l2 l3 : List α), lexicographic_less l1 l2 = true →
      lexicographic_less l2 l3 = true → lexicographic_less l1 l3 = true := by
  intro l1
  induction l1 with
  | nil =>
    intro l2 l3 _ h23
    cases l3 with
    | nil => rw [lexicographic_less_nil_right] at h23; cases h23
    | cons z zs => rfl
  | cons x xs ih =>
    intro l2 l3 h12 h23
    cases l2 with
    | nil => rw [lexicographic_less_nil_right] at h12; cases h12
    | cons y ys =>
      cases l3 with
      | nil => rw [lexicographic_less_nil_right] at h23; cases h23
      | cons z zs =>
        rcases lt_trichotomy x y with hxy | hxy | hxy
        · rcases lt_trichotomy y z with hyz | hyz | hyz
          · exact lexicographic_less_cons_lt x z xs zs (lt_trans hxy hyz)
          · subst hyz
            exact lexicographic_less_cons_lt x y xs zs hxy
          · rw [lexicographic_less_cons_gt y z ys zs hyz] at h23
            cases h23
        · subst hxy
          rcases lt_trichotomy x z with hyz | hyz | hyz
          · exact lexicographic_less_cons_lt x z xs zs hyz
          · subst hyz
            rw [lexicographic_less_cons_same] at h12 h23 ⊢
            exact ih ys zs h12 h23
          · rw [lexicographic_less_cons_gt x z ys zs hyz] at h23
            cases h23
        · rw [lexicographic_less_cons_gt x y xs ys hxy] at h12
          cases h12

theorem lexicographic_less_trichotomy [LinearOrder α] :
    ∀ (l1 l2 : List α), lexicographic_less l1 l2 = true ∨ l1 = l2 ∨
      lexicographic_less l2 l1 = true := by
  intro l1
  induction l1 with
  | nil =>
    intro l2
    cases l2 with
    | nil => exact Or.inr (Or.inl rfl)
    | cons y ys => exact Or.inl rfl
  | cons x xs ih =>
    intro l2
    cases l2 with
    | nil => exact Or.inr (Or.inr rfl)
    | cons y ys =>
      rcases lt_trichotomy x y with hxy | hxy | hxy
      · exact Or.inl (lexicographic_less_cons_lt x y xs ys hxy)
      · subst hxy
        rw [lexicographic_less_cons_same, lexicographic_less_cons_same]
        rcases ih ys with h | h | h
        · exact Or.inl h
        · exact Or.inr (Or.inl (by rw [h]))
        · exact Or.inr (Or.inr h)
      · exact Or.inr (Or.inr (lexicographic_less_cons_lt y x ys xs hxy))

theorem lexicographic_less_asymm [LinearOrder α] (l1 l2 : List α)
    (h : lexicographic_less l1 l2 = true) : lexicographic_less l2 l1 = false := by
  cases h21 : lexicographic_less l2 l1 with
  | false => rfl
  | true =>
    have := lexicographic_less_trans l1 l2 l1 h h21
    rw [lexicographic_less_irrefl] at this
    cases this

/-- The comparison computed by the specification-level function is the lexicographic
order `List.Lex (· < ·)`. -/
theorem lexicographic_less_iff_Lex [LinearOrder α] :
    ∀ (l1 l2 : List α), lexicographic_less l1 l2 = true ↔ List.Lex (· < ·) l1 l2 := by
  intro l1
  induction l1 with
  | nil =>
    intro l2
    cases l2 with
    | nil => simp [lexicographic_less]
    | cons y ys => simp [lexicographic_less, List.Lex.nil]
  | cons x xs ih =>
    intro l2
    cases l2 with
    | nil => simp [lexicographic_less]
    | cons y ys =>
      rcases lt_trichotomy x y with hxy | hxy | hxy
      · rw [lexicographic_less_cons_lt x y xs ys hxy]
        exact ⟨fun _ => List.Lex.rel hxy, fun _ => rfl⟩
      · subst hxy
        rw [lexicographic_less_cons_same, ih ys, List.Lex.cons_iff]
      · rw [lexicographic_less_cons_gt x y xs ys hxy]
        constructor
        · intro h
          cases h
        · intro h
          cases h with
          | cons h1 => exact absurd hxy (lt_irrefl _)
          | rel h1 => exact absurd h1 (not_lt_of_lt hxy)

/-- With a lawful element `==`, `operator==` answers whether the live sequences are the
same; `same` is the identity test, true only when both arguments are one object. -/
theorem eq_true_iff_live [BEq α] [LawfulBEq α] (a b : SimpleVector α) (same : Bool)
    (hsame : same = true → a = b) (ha : a.size_ ≤ a.items_.raw_ptr_.length)
    (hb : b.size_ ≤ b.items_.raw_ptr_.length) :
    ∃ r, a.eq b same = .ok r ∧ (r = true ↔ a.live = b.live) := by
  cases same with
  | true =>
    have hab := hsame rfl
    subst hab
    exact ⟨true, by simp [eq], by simp⟩
  | false =>
    obtain ⟨r, he, hr⟩ := eq_spec a b ha hb
    refine ⟨r, he, ?_⟩
    rw [hr]
    constructor
    · rintro ⟨hs, hall⟩
      apply List.ext_getElem?
      intro j
      rw [live_getElem?, live_getElem?, ← hs]
      by_cases c : j < a.size_
      · obtain ⟨x, y, hx, hy, hxy⟩ := hall j c
        rw [if_pos c, if_pos c, hx, hy, eq_of_beq hxy]
      · rw [if_neg c, if_neg c]
    · intro hl
      have hs : a.size_ = b.size_ := by
        rw [← live_length a ha, ← live_length b hb, hl]
      refine ⟨hs, fun i hi => ?_⟩
      have hia : i < a.items_.raw_ptr_.length := by omega
      have hlj := congrArg (fun l => l[i]?) hl
      simp only [live_getElem?, if_pos hi, if_pos (hs ▸ hi)] at hlj
      refine ⟨a.items_.raw_ptr_[i], a.items_.raw_ptr_[i], by simp [hia], ?_, by simp⟩
      rw [← hlj]
      simp [hia]

/-- C15: over an element type with a strict total order, `operator<` on containers (their
live cells being allocated) returns the lexicographic comparison of the live sequences,
that is the order `List.Lex (· < ·)`, in which a proper leading part of a sequence is
less than the sequence; it is a strict weak ordering: irreflexive, transitive, and with
transitive incomparability.  Container equality is reflexive and symmetric. -/
theorem lt_strict_weak_order [LinearOrder α] [BEq α] [LawfulBEq α] (a b c : SimpleVector α)
    (ha : a.GetSize ≤ a.items_.Get.length) (hb : b.GetSize ≤ b.items_.Get.length)
    (hc : c.GetSize ≤ c.items_.Get.length) :
    (a.lt b = .ok (lexicographic_less a.live b.live) ∧
      (a.lt b = .ok true ↔ List.Lex (· < ·) a.live b.live)) ∧
    (∀ y ys, b.live = a.live ++ y :: ys → a.lt b = .ok true) ∧
    a.lt a = .ok false ∧
    (a.lt b = .ok true → b.lt c = .ok true → a.lt c = .ok true) ∧
    (a.lt b = .ok false → b.lt a = .ok false → b.lt c = .ok false → c.lt b = .ok false →
      a.lt c = .ok false ∧ c.lt a = .ok false) ∧
    (a.eq a true = .ok true ∧ a.eq a false = .ok true) ∧
    a.eq b false = b.eq a false := by
  unfold GetSize ArrayPtr.Get at ha hb hc
  have hab := lt_spec a b ha hb
  have hba := lt_spec b a hb ha
  have hbc := lt_spec b c hb hc
  have hcb := lt_spec c b hc hb
  have hac := lt_spec a c ha hc
  have hca := lt_spec c a hc ha
  have haa := lt_spec a a ha ha
  have inj : ∀ x y : Bool, (Except.ok x : Except Fault Bool) = .ok y → x = y := by
    intro x y h
    cases h
    rfl
  refine ⟨⟨hab, ?_⟩, ?_, ?_, ?_, ?_, ⟨by simp [eq], ?_⟩, ?_⟩
  · rw [hab, ← lexicographic_less_iff_Lex]
    exact ⟨fun h => inj _ _ h, fun h => by rw [h]⟩
  · intro y ys hl
    rw [hab]
    have hlex : List.Lex (· < ·) a.live b.live := by
      rw [hl]
      have := List.Lex.append_left (· < ·) (List.Lex.nil : List.Lex (· < ·) [] (y :: ys))
        a.live
      simpa using this
    rw [(lexicographic_less_iff_Lex _ _).2 hlex]
  · rw [haa, lexicographic_less_irrefl]
  · intro h1 h2
    rw [hab] at h1
    rw [hbc] at h2
    rw [hac, lexicographic_less_trans _ _ _ (inj _ _ h1) (inj _ _ h2)]
  · intro h1 h2 h3 h4
    rw [hab] at h1
    rw [hba] at h2
    rw [hbc] at h3
    rw [hcb] at h4
    have e1 : a.live = b.live := by
      rcases lexicographic_less_trichotomy a.live b.live with h | h | h
      · rw [h] at h1
        cases inj _ _ h1
      · exact h
      · rw [h] at h2
        cases inj _ _ h2
    have e2 : b.live = c.live := by
      rcases lexicographic_less_trichotomy b.live c.live with h | h | h
      · rw [h] at h3
        cases inj _ _ h3
      · exact h
      · rw [h] at h4
        cases inj _ _ h4
    rw [hac, hca, e1, e2, lexicographic_less_irrefl]
    exact ⟨rfl, rfl⟩
  · exact eq_of_cells a a rfl ha ha (fun _ _ => rfl)
  · obtain ⟨r1, he1, hr1⟩ := eq_true_iff_live a b false (fun h => by cases h) ha hb
    obtain ⟨r2, he2, hr2⟩ := eq_true_iff_live b a false (fun h => by cases h) hb ha
    have : r1 = r2 := by
      rw [Bool.eq_iff_iff, hr1, hr2]
      exact ⟨fun h => h.symm, fun h => h.symm⟩
    rw [he1, he2, this]

theorem lt_strict_weak_order_witness :
    (⟨⟨[1, 2, 3, 0]⟩, 3, 4⟩ : SimpleVector Nat).lt ⟨⟨[1, 2, 4]⟩, 3, 3⟩ = .ok true ∧
    (⟨⟨[1, 2]⟩, 2, 2⟩ : SimpleVector Nat).lt ⟨⟨[1, 2, 3, 0]⟩, 3, 4⟩ = .ok true ∧
    List.Lex (· < ·) (⟨⟨[1, 2]⟩, 2, 2⟩ : SimpleVector Nat).live
      (⟨⟨[1, 2, 3, 0]⟩, 3, 4⟩ : SimpleVector Nat).live ∧
    (⟨⟨[1, 2]⟩, 2, 2⟩ : SimpleVector Nat).lt ⟨⟨[1, 2, 4]⟩, 3, 3⟩ = .ok true := by
  have h := lt_strict_weak_order (⟨⟨[1, 2]⟩, 2, 2⟩ : SimpleVector Nat)
    ⟨⟨[1, 2, 3, 0]⟩, 3, 4⟩ ⟨⟨[1, 2, 4]⟩, 3, 3⟩ (by decide) (by decide) (by decide)
  have h12 := h.2.1 3 [] rfl
  exact ⟨rfl, h12, h.1.2.1 h12, h.2.2.2.1 h12 rfl⟩

/-- C16: over an element type whose `==` and `<` form a total order, the derived relations
on containers (their live cells being allocated) are what their definitions from `==` and
`<` say: `a != b` is the negation of `a == b`, `a <= b` holds iff `a < b` or `a == b`,
`a > b` iff `b < a`, `a >= b` iff `a > b` or `a == b`, and exactly one of `a < b`,
`a == b`, `b < a` holds.  `same` is the identity test of `operator==`. -/
theorem derived_relations [LinearOrder α] [BEq α] [LawfulBEq α] (a b : SimpleVector α)
    (same : Bool) (hsame : same = true → a = b)
    (ha : a.GetSize ≤ a.items_.Get.length) (hb : b.GetSize ≤ b.items_.Get.length) :
    ∃ rlt rlt2 req rle rgt rge : Bool,
      a.lt b = .ok rlt ∧ b.lt a = .ok rlt2 ∧ a.eq b same = .ok req ∧
      a.ne b same = .ok (!req) ∧ a.le b = .ok rle ∧ a.gt b = .ok rgt ∧ a.ge b = .ok rge ∧
      (rle = true ↔ rlt = true ∨ req = true) ∧
      (rgt = true ↔ rlt2 = true) ∧
      (rge = true ↔ rgt = true ∨ req = true) ∧
      ((rlt = true ∧ req = false ∧ rlt2 = false) ∨
        (rlt = false ∧ req = true ∧ rlt2 = false) ∨
        (rlt = false ∧ req = false ∧ rlt2 = true)) := by
  unfold GetSize ArrayPtr.Get at ha hb
  have hab := lt_spec a b ha hb
  have hba := lt_spec b a hb ha
  obtain ⟨e, he, hr⟩ := eq_true_iff_live a b same hsame ha hb
  refine ⟨lexicographic_less a.live b.live, lexicographic_less b.live a.live, e,
    !(lexicographic_less b.live a.live), lexicographic_less b.live a.live,
    !(lexicographic_less a.live b.live), hab, hba, he, by simp [ne, he],
    by simp [le, hba], by simp [gt, hba], by simp [ge, gt, hab], ?_⟩
  rcases lexicographic_less_trichotomy a.live b.live with h | h | h
  · have h2 := lexicographic_less_asymm _ _ h
    have hne : e = false := by
      cases hev : e with
      | false => rfl
      | true =>
        rw [hev] at hr
        have hl := hr.1 rfl
        rw [hl, lexicographic_less_irrefl] at h
        cases h
    rw [h, h2, hne]
    simp
  · have he1 : e = true := hr.2 h
    have h1 : lexicographic_less a.live b.live = false := by
      rw [h, lexicographic_less_irrefl]
    have h2 : lexicographic_less b.live a.live = false := by
      rw [h, lexicographic_less_irrefl]
    rw [h1, h2, he1]
    simp
  · have h2 := lexicographic_less_asymm _ _ h
    have hne : e = false := by
      cases hev : e with
      | false => rfl
      | true =>
        rw [hev] at hr
        have hl := hr.1 rfl
        rw [hl, lexicographic_less_irrefl] at h
        cases h
    rw [h, h2, hne]
    simp

theorem derived_relations_witness :
    ∃ rlt rlt2 req rle rgt rge : Bool,
      (⟨⟨[1, 2]⟩, 2, 2⟩ : SimpleVector Nat).lt ⟨⟨[1, 2, 3, 0]⟩, 3, 4⟩ = .ok rlt ∧
      (⟨⟨[1, 2, 3, 0]⟩, 3, 4⟩ : SimpleVector Nat).lt ⟨⟨[1, 2]⟩, 2, 2⟩ = .ok rlt2 ∧
      (⟨⟨[1, 2]⟩, 2, 2⟩ : SimpleVector Nat).eq ⟨⟨[1, 2, 3, 0]⟩, 3, 4⟩ false = .ok req ∧
      (⟨⟨[1, 2]⟩, 2, 2⟩ : SimpleVector Nat).ne ⟨⟨[1, 2, 3, 0]⟩, 3, 4⟩ false = .ok (!req) ∧
      (⟨⟨[1, 2]⟩, 2, 2⟩ : SimpleVector Nat).le ⟨⟨[1, 2, 3, 0]⟩, 3, 4⟩ = .ok rle ∧
      (⟨⟨[1, 2]⟩, 2, 2⟩ : SimpleVector Nat).gt ⟨⟨[1, 2, 3, 0]⟩, 3, 4⟩ = .ok rgt ∧
      (⟨⟨[1, 2]⟩, 2, 2⟩ : SimpleVector Nat).ge ⟨⟨[1, 2, 3, 0]⟩, 3, 4⟩ = .ok rge ∧
      (rle = true ↔ rlt = true ∨ req = true) ∧
      (rgt = true ↔ rlt2 = true) ∧
      (rge = true ↔ rgt = true ∨ req = true) ∧
      ((rlt = true ∧ req = false ∧ rlt2 = false) ∨
        (rlt = false ∧ req = true ∧ rlt2 = false) ∨
        (rlt = false ∧ req = false ∧ rlt2 = true)) :=
  derived_relations (⟨⟨[1, 2]⟩, 2, 2⟩ : SimpleVector Nat) ⟨⟨[1, 2, 3, 0]⟩, 3, 4⟩ false
    (fun h => by cases h) (by decide) (by decide)

/-- Every constructor other than the copy constructor yields a well-formed container,
and every mutating operation other than copy assignment keeps a well-formed container
well-formed: `Copy` is the only place where the capacity and the allocation part. -/
theorem WellFormed_kept [Element α] (v other : SimpleVector α) (n p : Nat) (x : α)
    (init : List α) (obj : ReserveProxyObj) (hv : v.WellFormed) (ho : other.WellFormed) :
    ((empty : SimpleVector α).WellFormed ∧
      (∃ w : SimpleVector α, with_size n = .ok w ∧ w.WellFormed) ∧
      (∃ w, with_value n x = .ok w ∧ w.WellFormed) ∧
      (∃ w, of_init init = .ok w ∧ w.WellFormed) ∧
      (∃ w : SimpleVector α, of_reserve obj = .ok w ∧ w.WellFormed) ∧
      (move_ctor v).1.WellFormed ∧ (move_ctor v).2.WellFormed) ∧
    (v.Clear.WellFormed ∧
      (∃ w, v.Resize n = .ok w ∧ w.WellFormed) ∧
      (∃ w, v.PushBack x = .ok w ∧ w.WellFormed) ∧
      (∃ w, v.PushBack_move x = .ok w ∧ w.WellFormed) ∧
      (p ≤ v.size_ → ∃ w, v.Insert p x = .ok (p, w) ∧ w.WellFormed) ∧
      (p ≤ v.size_ → ∃ w, v.Insert_move p x = .ok (p, w) ∧ w.WellFormed) ∧
      (v.size_ ≠ 0 → v.PopBack.WellFormed) ∧
      (p < v.size_ → ∃ w, v.Erase p = .ok (p, w) ∧ w.WellFormed) ∧
      (∃ w, v.Reserve n = .ok w ∧ w.WellFormed) ∧
      ((v.swap other).1.WellFormed ∧ (v.swap other).2.WellFormed) ∧
      ((v.assign_move other true).1.WellFormed ∧
        (v.assign_move other true).2.WellFormed)) := by
  have hvv := hv
  obtain ⟨h1, h2⟩ := hv
  refine ⟨⟨empty_WellFormed, ?_, ?_, ?_, ?_, hvv, empty_WellFormed⟩,
    ⟨Nat.zero_le _, h2⟩, ?_, ?_, ?_, ?_, ?_, ?_, ?_, ?_, ⟨ho, hvv⟩, ⟨ho, empty_WellFormed⟩⟩
  · obtain ⟨w, he, hs, hc, hl, _⟩ := with_size_spec (α := α) n
    exact ⟨w, he, by omega, by omega⟩
  · obtain ⟨w, he, hs, hc, hl, _⟩ := with_value_spec n x
    exact ⟨w, he, by omega, by omega⟩
  · obtain ⟨w, he, hs, hc, hl, _⟩ := of_init_spec init
    exact ⟨w, he, by omega, by omega⟩
  · obtain ⟨w, he, _, _, hw⟩ := of_reserve_spec (α := α) obj
    exact ⟨w, he, hw⟩
  · obtain ⟨w, he, hw, _⟩ := Resize_spec v n hvv
    exact ⟨w, he, hw⟩
  · obtain ⟨w, he, hw, _⟩ := PushBack_spec v x hvv
    exact ⟨w, he, hw⟩
  · obtain ⟨w, he, hw, _⟩ := PushBack_move_spec v x hvv
    exact ⟨w, he, hw⟩
  · intro hp
    obtain ⟨w, he, hw, _⟩ := Insert_spec v p x hvv hp
    exact ⟨w, he, hw⟩
  · intro hp
    obtain ⟨w, he, hw, _⟩ := Insert_move_spec v p x hvv hp
    exact ⟨w, he, hw⟩
  · intro hne
    refine ⟨?_, h2⟩
    show (if v.size_ = 0 then SIZE_MAX else v.size_ - 1) ≤ v.capacity_
    rw [if_neg hne]
    omega
  · intro hp
    obtain ⟨w, he, hs, hc, hl, _⟩ := Erase_spec v p (by omega) hp
    exact ⟨w, he, by omega, by omega⟩
  · obtain ⟨w, he, hs, hc, hl, hsame, _⟩ := Reserve_spec v n h1 (by omega)
    refine ⟨w, he, ?_⟩
    by_cases hn : v.capacity_ < n
    · rw [if_pos hn] at hc
      exact ⟨by omega, by rw [hl hn, hc]⟩
    · rw [hsame (by omega)]
      exact hvv

end SimpleVector

end SimpleVectorModel
